import Mathlib

/-!
Verification development for the incremental build engine in
`src/isengard2/_runner.py` (class `Runner`).

Shallow embedding conventions:

* `ResolvedTargetID` is modelled as `String`; a target fingerprint is the
  handler-provided byte string, modelled as `String`.
* A cooked target in the source is an opaque value produced by
  `target_handlers.cook_target(target, previous_fingerprint)`; the engine only
  passes it back to the same handler.  It is therefore modelled as the pair
  `(target, previous_fingerprint)` and every handler operation becomes a
  function of that pair, collected in `EngineEnv`.  Handlers are pure within
  one invocation (the engine is single threaded and the world outside is
  frozen), so these functions are fixed for a whole `run`/`clean` call.
* `rule.run(outputs_cooked, inputs_cooked, config)` is user code whose only
  effect visible to the engine is success or an exception; it is modelled by
  the boolean `EngineEnv.run_ok` indexed by the rule id.  Likewise
  `handler.clean(cooked)` is modelled by `EngineEnv.clean_ok`.
* `sha256(...)` in `_compute_run_fingerprint` is modelled by keeping the
  digest *input* itself as the store key (a collision-free abstraction of the
  hash): the rule id together with the serialised configuration values in
  sorted key order.  Configuration values are modelled by their serialised
  (`pickle.dumps`) form directly, as `String`.
* Python recursion carries no fuel; `_run`'s recursion is modelled with an
  explicit fuel parameter, and exhausting the fuel yields the distinguished
  outcome `RunResult.div` (the source's unbounded recursion / Python
  `RecursionError`).
* The execution trace records the observable calls the claims talk about:
  `cook` for each `cook_target` invocation, `runBody` for each `rule.run`
  invocation, `commit` for each `db.set_rule_previous_run`, and `cleanTarget`
  for each `handler.clean` invocation.  The trace list is kept newest first
  (Python appends at the end).
-/

/-- ResolvedTargetID from `_target.py`: an opaque, fully resolved target name. -/
abbrev TargetId := String

/-- TargetFingerprint: a handler-defined byte string. -/
abbrev Fingerprint := String

/-- ResolvedRule from `_rule.py`, restricted to the fields `_runner.py` reads:
`id`, `resolved_inputs`, `resolved_outputs`, `needed_config`.  `needed_config`
is a Python `Set[str]`, modelled as a list (only its sorted deduplication is
ever used). -/
structure ResolvedRule where
  id : String
  resolved_inputs : List TargetId
  resolved_outputs : List TargetId
  needed_config : List String
deriving DecidableEq

/-- Configuration mapping, with values already in their serialised
(`pickle.dumps`) form.  `Runner._compute_run_fingerprint` reads `config[k]`
for `k` in a rule's `needed_config`; the source raises `KeyError` on a missing
key, the model is total (the spec requires the configuration to supply every
needed key). -/
abbrev ConfigMap := String → String

/-- Exceptions of `_exceptions.py` as they occur in `_runner.py`.
`runError` carries the failing rule's id (the source wraps the underlying
exception message around it). -/
inductive EngineError where
  | unknownTarget (msg : String)
  | consistencyError (msg : String)
  | runError (ruleId : String)
deriving DecidableEq

/-- Observable engine events, newest first in the trace. -/
inductive Event where
  | cook (t : TargetId)
  | runBody (ruleId : String)
  | commit (ruleId : String)
  | cleanTarget (t : TargetId)
deriving DecidableEq

/-- Outcome of a traversal: normal return, a raised exception, or
non-termination of the source's unbounded recursion (fuel exhausted). -/
inductive RunResult (α : Type) where
  | ok (a : α)
  | err (e : EngineError)
  | div
deriving DecidableEq

/-- External collaborators of the `Runner`, fixed for one invocation:
the target handlers (`ON_DISK_TARGET`, `need_rebuild`, `compute_fingerprint`,
`clean`) applied to cooked values `(target, previous-fingerprint hint)`, and
the success of user rule bodies (`rule.run`). -/
structure EngineEnv where
  on_disk : TargetId → Bool
  need_rebuild : TargetId → Option Fingerprint → Fingerprint → Bool
  compute_fingerprint : TargetId → Option Fingerprint → Option Fingerprint
  clean_ok : TargetId → Bool
  run_ok : String → Bool

/-- First-match association-list lookup (Python `dict` access; insertion at
the front shadows, which models `dict` overwriting). -/
def lookupA {α β : Type} [DecidableEq α] (k : α) : List (α × β) → Option β
  | [] => none
  | (k', v) :: rest => if k' = k then some v else lookupA k rest

/-- Insert a string into a sorted list of strings. -/
def insertSorted (s : String) : List String → List String
  | [] => [s]
  | x :: xs => if s ≤ x then s :: x :: xs else x :: insertSorted s xs

/-- Insertion sort on strings, modelling Python `sorted`. -/
def sortStrings : List String → List String
  | [] => []
  | x :: xs => insertSorted x (sortStrings xs)

/-- Python `sorted(rule.needed_config)` where `needed_config` is a set:
sorted distinct keys. -/
def sorted_needed (r : ResolvedRule) : List String :=
  sortStrings r.needed_config.dedup

/-- Store key: the run fingerprint, modelled by the sha256 digest input
(`Runner._compute_run_fingerprint`, lines 29-37): the rule id followed by the
serialised configuration values of the needed keys in sorted key order.  The
key *names* are not fed to the hash, only `pickle_dumps(self.config[k])`. -/
abbrev DbKey := String × List String

/-- PreviousRunRecord: target fingerprints observed at the last run. -/
abbrev PrevRecord := List (TargetId × Fingerprint)

/-- Fingerprint store contents (`_db.py`), an association list keyed by run
fingerprint; commits cons at the front (overwrite by shadowing). -/
abbrev Db := List (DbKey × PrevRecord)

/-- `Runner._compute_run_fingerprint` as the digest input fed to sha256. -/
def compute_run_fingerprint (config : ConfigMap) (r : ResolvedRule) : DbKey :=
  (r.id, (sorted_needed r).map config)

/-- Flat byte stream actually digested: the id's bytes followed by each
serialised needed value, concatenated in sorted key order. -/
def run_fingerprint_stream (config : ConfigMap) (r : ResolvedRule) : String :=
  r.id ++ String.join ((sorted_needed r).map config)

/-- Digest input as the specification words it: the id, then each
(config-key, serialised-config-value) *pair* in sorted key order.  Used only
to compare the source's digest input against the spec's description. -/
def run_fingerprint_stream_spec (config : ConfigMap) (r : ResolvedRule) : String :=
  r.id ++ String.join ((sorted_needed r).map (fun k => k ++ config k))

/-- `Runner.__init__` lines 21-23: invert `resolved_outputs` into
`target_to_rule` with a dict comprehension; a later rule silently overwrites
an earlier one on a duplicated output, hence the reversed search. -/
def target_to_rule (rules : List ResolvedRule) (t : TargetId) : Option ResolvedRule :=
  rules.reverse.find? (fun r => decide (t ∈ r.resolved_outputs))

/-- Mutable state of one `run_rule` invocation: the two per-invocation caches
(`already_evaluated` keyed by rule, `targets_eval_cache` storing the cooked
value's hint and the `has_changed` flag), the fingerprint store, and the
event trace (newest first). -/
structure RunState where
  already_evaluated : List (ResolvedRule × Bool)
  targets_eval_cache : List (TargetId × (Option Fingerprint × Bool))
  db : Db
  trace : List Event
deriving DecidableEq

/-- Fresh state at engine entry. -/
def initState (db : Db) : RunState :=
  { already_evaluated := [], targets_eval_cache := [], db := db, trace := [] }

/-- Record an event (newest first). -/
def addEvent (e : Event) (st : RunState) : RunState :=
  { st with trace := e :: st.trace }

/-- The source's message for an unknown requested target (lines 43 and 94). -/
def unknownTopMsg (t : TargetId) : String :=
  "No rule has target `" ++ t ++ "` as output"

/-- The source's message for an unknown input during `run` (line 144).  The
Python `!r` conversion of the target id is modelled by the plain id. -/
def unknownInputRunMsg (t : TargetId) (r : ResolvedRule) : String :=
  "No rule has target `" ++ t ++ "` as output (needed by rule `" ++ r.id ++ "`)"

/-- The source's message for an unknown input during `clean` (line 77); the
source's f-string lacks the closing parenthesis. -/
def unknownInputCleanMsg (t : TargetId) (parents : List ResolvedRule) : String :=
  "No rule has target `" ++ t ++ "` as output (needed by "
    ++ String.intercalate " -> " (parents.map (·.id))

/-- The source's cycle message in `_clean` (line 83). -/
def recursionMsg (parents : List ResolvedRule) : String :=
  "Recursion detection in rules " ++ String.intercalate " -> " (parents.map (·.id))

/-- Step 2 of `_run` (lines 127-165): evaluate each input in declaration
order, threading `rebuild_needed` and `to_cache_targets`.  `recur` is the
recursive `_run` call on the owning rule.  For an input with no owning rule
the source cooks it first (line 137), then raises `UnknownTarget` if its
handler is not `ON_DISK_TARGET` (line 142), else computes `need_rebuild`
(absent previous fingerprint means changed), records it in
`targets_eval_cache` and appends it to `to_cache_targets`. -/
def run_inputs (rules : List ResolvedRule) (env : EngineEnv)
    (recur : ResolvedRule → RunState → RunState × RunResult Bool)
    (r : ResolvedRule) (prev : PrevRecord) :
    List TargetId → Bool → List TargetId → RunState →
      RunState × RunResult (Bool × List TargetId)
  | [], rb, tc, st => (st, .ok (rb, tc))
  | t :: rest, rb, tc, st =>
    match target_to_rule rules t with
    | none =>
      let prevFp := lookupA t prev
      let st := addEvent (.cook t) st
      if env.on_disk t then
        let changed := match prevFp with
          | some fp => env.need_rebuild t prevFp fp
          | none => true
        let st := { st with targets_eval_cache := (t, (prevFp, changed)) :: st.targets_eval_cache }
        run_inputs rules env recur r prev rest (rb || changed) (tc ++ [t]) st
      else
        (st, .err (.unknownTarget (unknownInputRunMsg t r)))
    | some subrule =>
      match recur subrule st with
      | (st, .ok b) => run_inputs rules env recur r prev rest (rb || b) tc st
      | (st, .err e) => (st, .err e)
      | (st, .div) => (st, .div)

/-- Step 3 of `_run` (lines 167-191): cook every output with its previous
fingerprint, query `need_rebuild` (absent prior fingerprint means changed),
record it in the cache and in `to_cache_targets`, and OR the flag in. -/
def run_outputs (env : EngineEnv) (prev : PrevRecord) :
    List TargetId → Bool → List TargetId → RunState →
      Bool × List TargetId × RunState
  | [], rb, tc, st => (rb, tc, st)
  | t :: rest, rb, tc, st =>
    let prevFp := lookupA t prev
    let st := addEvent (.cook t) st
    let changed := match prevFp with
      | some fp => env.need_rebuild t prevFp fp
      | none => true
    let st := { st with targets_eval_cache := (t, (prevFp, changed)) :: st.targets_eval_cache }
    run_outputs env prev rest (rb || changed) (tc ++ [t]) st

/-- Step 6 of `_run` (lines 206-215): for each target in `to_cache_targets`
read its cooked value from the cache, compute a fresh fingerprint, keep the
pair when the fingerprint is present, and rewrite the cache entry's
`has_changed` with `rebuild_needed` (true on this path).  The cache lookup
cannot miss on source executions (every cached target was inserted earlier in
the same call); the model totalises it with a default. -/
def commit_targets (env : EngineEnv) :
    List TargetId → RunState → PrevRecord × RunState
  | [], st => ([], st)
  | t :: rest, st =>
    let hint := ((lookupA t st.targets_eval_cache).getD (none, false)).1
    let fpOpt := env.compute_fingerprint t hint
    let st := { st with targets_eval_cache := (t, (hint, true)) :: st.targets_eval_cache }
    let (fps, st) := commit_targets env rest st
    (match fpOpt with
      | some fp => (t, fp) :: fps
      | none => fps, st)

/-- The recursive `_run` of `run_rule` (lines 104-218).  Steps: fast track on
`already_evaluated`; fetch the previous run record (absent record forces
rebuild); evaluate inputs (recursing on owning rules); evaluate outputs;
record the verdict in `already_evaluated`; if a rebuild is needed invoke the
rule body (an exception becomes `RunError` with the rule id) and commit the
freshly computed fingerprints for `to_cache_targets`.  The source has no
cycle detection here; fuel exhaustion models its unbounded recursion. -/
def run_rule_go (rules : List ResolvedRule) (env : EngineEnv) (config : ConfigMap) :
    Nat → ResolvedRule → RunState → RunState × RunResult Bool
  | 0, _, st => (st, .div)
  | fuel+1, r, st =>
    match lookupA r st.already_evaluated with
    | some b => (st, .ok b)
    | none =>
      let key := compute_run_fingerprint config r
      let fetched := lookupA key st.db
      let rb0 := fetched.isNone
      let prev := fetched.getD []
      match run_inputs rules env (fun r' st' => run_rule_go rules env config fuel r' st')
          r prev r.resolved_inputs rb0 [] st with
      | (st, .err e) => (st, .err e)
      | (st, .div) => (st, .div)
      | (st, .ok (rb1, tc1)) =>
        match run_outputs env prev r.resolved_outputs rb1 tc1 st with
        | (rb, tc, st) =>
          let st := { st with already_evaluated := (r, rb) :: st.already_evaluated }
          if rb then
            let st := addEvent (.runBody r.id) st
            if env.run_ok r.id then
              let (fps, st) := commit_targets env tc st
              let st := { st with db := (key, fps) :: st.db }
              let st := addEvent (.commit r.id) st
              (st, .ok true)
            else
              (st, .err (.runError r.id))
          else
            (st, .ok false)

/-- `Runner.run` (lines 90-96) composed with `run_rule`: resolve the owning
rule of the requested target (`UnknownTarget` if there is none, regardless of
the target's handler) and run the traversal on a fresh state. -/
def runner_run (rules : List ResolvedRule) (env : EngineEnv) (config : ConfigMap)
    (db : Db) (fuel : Nat) (target : TargetId) : RunState × RunResult Bool :=
  match target_to_rule rules target with
  | none => (initState db, .err (.unknownTarget (unknownTopMsg target)))
  | some r => run_rule_go rules env config fuel r (initState db)

/-- Mutable state of one `clean` invocation: the `already_cleaned` set and
the event trace (newest first).  `clean` only reads the store. -/
structure CleanState where
  already_cleaned : List ResolvedRule
  trace : List Event
deriving DecidableEq

/-- Fresh clean state. -/
def initCleanState : CleanState :=
  { already_cleaned := [], trace := [] }

/-- Record an event during clean (newest first). -/
def addCleanEvent (e : Event) (st : CleanState) : CleanState :=
  { st with trace := e :: st.trace }

/-- Output loop of `_clean` (lines 54-63): cook each output with its previous
fingerprint when recorded, invoke `handler.clean`, and wrap a failure as
`RunError` with the rule id.  The `cleanTarget` event marks the invocation of
`handler.clean`, emitted before the failure check. -/
def clean_outputs (env : EngineEnv) (r : ResolvedRule) (prev : PrevRecord) :
    List TargetId → CleanState → CleanState × Option EngineError
  | [], st => (st, none)
  | t :: rest, st =>
    let st := addCleanEvent (.cook t) st
    let st := addCleanEvent (.cleanTarget t) st
    if env.clean_ok t then
      clean_outputs env r prev rest st
    else
      (st, some (.runError r.id))

/-- Input loop of `_clean` (lines 65-85): for each input, if no rule owns it
check that its handler is `ON_DISK_TARGET` (`UnknownTarget` otherwise, citing
the parent chain); if the owning rule is already on the parent chain raise
`ConsistencyError` with the chain; otherwise recurse. -/
def clean_inputs (rules : List ResolvedRule) (env : EngineEnv)
    (recur : ResolvedRule → List ResolvedRule → CleanState → CleanState × RunResult Unit)
    (subParents : List ResolvedRule) :
    List TargetId → CleanState → CleanState × RunResult Unit
  | [], st => (st, .ok ())
  | t :: rest, st =>
    match target_to_rule rules t with
    | none =>
      if env.on_disk t then
        clean_inputs rules env recur subParents rest st
      else
        (st, .err (.unknownTarget (unknownInputCleanMsg t subParents)))
    | some subrule =>
      if subrule ∈ subParents then
        (st, .err (.consistencyError (recursionMsg subParents)))
      else
        match recur subrule subParents st with
        | (st, .ok _) => clean_inputs rules env recur subParents rest st
        | (st, .err e) => (st, .err e)
        | (st, .div) => (st, .div)

/-- The recursive `_clean` (lines 47-85): skip rules already cleaned, record
the rule as cleaned, fetch its previous run record (or empty), clean every
output, then walk the inputs with the extended parent chain. -/
def clean_go (rules : List ResolvedRule) (env : EngineEnv) (config : ConfigMap) (db : Db) :
    Nat → ResolvedRule → List ResolvedRule → CleanState → CleanState × RunResult Unit
  | 0, _, _, st => (st, .div)
  | fuel+1, r, parents, st =>
    if r ∈ st.already_cleaned then
      (st, .ok ())
    else
      let st := { st with already_cleaned := r :: st.already_cleaned }
      let key := compute_run_fingerprint config r
      let prev := (lookupA key db).getD []
      match clean_outputs env r prev r.resolved_outputs st with
      | (st, some e) => (st, .err e)
      | (st, none) =>
        clean_inputs rules env
          (fun r' p' st' => clean_go rules env config db fuel r' p' st')
          (parents ++ [r]) r.resolved_inputs st

/-- `Runner.clean` (lines 39-88): resolve the owning rule of the requested
target (`UnknownTarget` if there is none) and clean recursively from it. -/
def runner_clean (rules : List ResolvedRule) (env : EngineEnv) (config : ConfigMap)
    (db : Db) (fuel : Nat) (target : TargetId) : CleanState × RunResult Unit :=
  match target_to_rule rules target with
  | none => (initCleanState, .err (.unknownTarget (unknownTopMsg target)))
  | some r => clean_go rules env config db fuel r [] initCleanState

/-- Does some target appear in the `resolved_outputs` of at least two rules
of the list? -/
def has_duplicate_output (rules : List ResolvedRule) : Bool :=
  rules.any fun r => r.resolved_outputs.any fun t =>
    2 ≤ rules.countP fun r2 => decide (t ∈ r2.resolved_outputs)

/-- Modelled from the spec: rule-set construction, which happens upstream of
`Runner` and is not part of `src/isengard2/_runner.py` (the `Runner` receives
the already-built rule dictionary).  Per the spec it enforces that each
ResolvedTargetID appears in `resolved_outputs` of at most one rule and fails
with a configuration (consistency) error before any traversal; `Runner.__init__`
itself performs no check and silently lets a later rule shadow an earlier one. -/
def build_rule_set (rules : List ResolvedRule) : Except EngineError (List ResolvedRule) :=
  if has_duplicate_output rules then
    .error (.consistencyError "a target is declared as output of two rules")
  else
    .ok rules

/-- Engine entry for `run`, composed with the spec-modelled rule-set
construction: a rule set rejected at construction never reaches the Runner. -/
def isengard_run (rules : List ResolvedRule) (env : EngineEnv) (config : ConfigMap)
    (db : Db) (fuel : Nat) (target : TargetId) : RunState × RunResult Bool :=
  match build_rule_set rules with
  | .error e => (initState db, .err e)
  | .ok rs => runner_run rs env config db fuel target

/-- Engine entry for `clean`, composed with the spec-modelled rule-set
construction. -/
def isengard_clean (rules : List ResolvedRule) (env : EngineEnv) (config : ConfigMap)
    (db : Db) (fuel : Nat) (target : TargetId) : CleanState × RunResult Unit :=
  match build_rule_set rules with
  | .error e => (initCleanState, .err e)
  | .ok rs => runner_clean rs env config db fuel target

/-! Shared concrete environments and configurations used by the concrete
scenarios below. -/

/-- Permissive handler environment: everything is on disk, `need_rebuild`
always reports a change, fingerprints are always present, rule bodies and
cleans succeed. -/
def envTrue : EngineEnv :=
  { on_disk := fun _ => true
    need_rebuild := fun _ _ _ => true
    compute_fingerprint := fun _ _ => some "f"
    clean_ok := fun _ => true
    run_ok := fun _ => true }

/-- Configuration assigning the empty serialised value to every key. -/
def cfgEmpty : ConfigMap := fun _ => ""

/-- Rule `A: [b_out] -> a_out` of the spec's cycle scenario. -/
def cycleRuleA : ResolvedRule := ⟨"A", ["b_out"], ["a_out"], []⟩

/-- Rule `B: [a_out] -> b_out` of the spec's cycle scenario. -/
def cycleRuleB : ResolvedRule := ⟨"B", ["a_out"], ["b_out"], []⟩

/-- The cyclic rule set of the spec's scenario 6. -/
def cycleRules : List ResolvedRule := [cycleRuleA, cycleRuleB]

/-- Rule with id `r` needing configuration key `a`. -/
def c3RuleX : ResolvedRule := ⟨"r", [], ["o1"], ["a"]⟩

/-- Rule with the same id `r` but needing configuration key `b`. -/
def c3RuleY : ResolvedRule := ⟨"r", [], ["o2"], ["b"]⟩

/-- Configuration assigning the serialised value `v` to every key. -/
def c3Cfg : ConfigMap := fun _ => "v"


/-- Discriminator: has this outcome raised `UnknownTarget`? -/
def RunResult.isUnknownErr {α : Type} : RunResult α → Bool
  | .err (.unknownTarget _) => true
  | _ => false

/-- Rule `B: [missing_virtual] -> app` of the spec's scenario 5. -/
def c4RuleB : ResolvedRule := ⟨"B", ["missing_virtual"], ["app"], []⟩

/-- Handler environment in which every target except `missing_virtual` is on
disk. -/
def c4Env : EngineEnv := { envTrue with on_disk := fun t => t != "missing_virtual" }


/-- Invariant of the clean traversal: every entered (cleaned) rule belongs to
the rule set, and every `handler.clean` invocation so far hit an output of an
entered rule. -/
def CleanInv (rules : List ResolvedRule) (st : CleanState) : Prop :=
  (∀ r ∈ st.already_cleaned, r ∈ rules)
  ∧ ∀ t, Event.cleanTarget t ∈ st.trace → ∃ r, r ∈ st.already_cleaned ∧ t ∈ r.resolved_outputs

/-- Every output of every entered rule has had `handler.clean` invoked. -/
def AllCleaned (st : CleanState) : Prop :=
  ∀ r ∈ st.already_cleaned, ∀ t ∈ r.resolved_outputs, Event.cleanTarget t ∈ st.trace


/-- Invariant of the run traversal for claim C5: every target owned by a rule
of the rule set has been cooked at most once, and not at all while its owning
rule has not been evaluated. -/
def CookInv (rules : List ResolvedRule) (st : RunState) : Prop :=
  ∀ r t, r ∈ rules → t ∈ r.resolved_outputs →
    List.count (Event.cook t) st.trace ≤ 1
    ∧ (lookupA r st.already_evaluated = none → List.count (Event.cook t) st.trace = 0)

/-- Rule `A: [s] -> a` (the on-disk source `s` has no owning rule). -/
def c5RuleA : ResolvedRule := ⟨"A", ["s"], ["a"], []⟩

/-- Rule `B: [s, a] -> b`, sharing the unowned on-disk input `s` with `A`. -/
def c5RuleB : ResolvedRule := ⟨"B", ["s", "a"], ["b"], []⟩

/-- Rule set in which the unowned on-disk input `s` is an input of two
reachable rules. -/
def c5Rules : List ResolvedRule := [c5RuleA, c5RuleB]


/-- Does every `commit` event in the (newest-first) trace immediately follow
on a `runBody` event of the same rule id?  Newest-first, "the commit comes
right after the body returned" reads as: the entry next to a `commit` is its
`runBody`. -/
def commits_follow_runs : List Event → Bool
  | [] => true
  | Event.commit i :: rest =>
    (match rest with
      | Event.runBody j :: _ => decide (i = j)
      | _ => false) && commits_follow_runs rest
  | _ :: rest => commits_follow_runs rest

/-- Invariant of the run traversal for claim C6: commit events are unique per
rule id, each directly follows its (successful) rule body, and each belongs
to a rule of the set whose store record exists and whose verdict is cached. -/
def CommitInv (rules : List ResolvedRule) (env : EngineEnv) (config : ConfigMap)
    (st : RunState) : Prop :=
  (∀ i, List.count (Event.commit i) st.trace ≤ 1)
  ∧ commits_follow_runs st.trace = true
  ∧ (∀ i, Event.commit i ∈ st.trace → env.run_ok i = true)
  ∧ (∀ i, Event.commit i ∈ st.trace →
      ∃ r', r' ∈ rules ∧ r'.id = i
        ∧ (lookupA (compute_run_fingerprint config r') st.db).isSome
        ∧ lookupA r' st.already_evaluated ≠ none)


/-- Environment in which rule `B`'s body fails and every other body
succeeds. -/
def c6Env : EngineEnv := { envTrue with run_ok := fun i => i != "B" }


/-- Inputs of `r` that no rule of the set owns: on-disk prerequisites. -/
def unowned_inputs (rules : List ResolvedRule) (r : ResolvedRule) : List TargetId :=
  r.resolved_inputs.filter (fun t => (target_to_rule rules t).isNone)

/-- A previous-run record that replays as "unchanged" for every unowned
input and every output of `r`. -/
def GoodRecord (rules : List ResolvedRule) (env : EngineEnv) (m : PrevRecord)
    (r : ResolvedRule) : Prop :=
  ∀ t, t ∈ unowned_inputs rules r ∨ t ∈ r.resolved_outputs →
    ∃ fp, lookupA t m = some fp ∧ env.need_rebuild t (some fp) fp = false

/-- The store holds, under the current configuration, a record for `r` that
replays as "no rebuild needed". -/
def settled (rules : List ResolvedRule) (env : EngineEnv) (config : ConfigMap)
    (db : Db) (r : ResolvedRule) : Prop :=
  ∃ m, lookupA (compute_run_fingerprint config r) db = some m
    ∧ GoodRecord rules env m r

/-- Relation between the first and second run's memoisation tables: the same
rules are present. -/
def relAE (stA stB : RunState) : Prop :=
  ∀ r', (lookupA r' stA.already_evaluated = none) ↔ (lookupA r' stB.already_evaluated = none)

/-- Number of rule-body invocations recorded in a trace. -/
def bodyCount (tr : List Event) : Nat :=
  tr.countP (fun e => match e with | Event.runBody _ => true | _ => false)

/-- Handler environment satisfying the strengthened round-trip law: a target
whose recorded fingerprint equals what `compute_fingerprint` returns now is
reported unchanged. -/
def envGood : EngineEnv := { envTrue with need_rebuild := fun _ _ fp => fp != "f" }

/-- Single rule `A: [] -> a` for the C7 counterexample. -/
def c7Rule : ResolvedRule := ⟨"A", [], ["a"], []⟩


/-- Every memoised rule belongs to the rule set and has a settled record in
the current store. -/
def AeSettled (rules : List ResolvedRule) (env : EngineEnv) (config : ConfigMap)
    (st : RunState) : Prop :=
  ∀ r' b, lookupA r' st.already_evaluated = some b →
    r' ∈ rules ∧ settled rules env config st.db r'

/-! Helper lemmas about the list utilities. -/

theorem mem_insertSorted {a s : String} {l : List String} :
    a ∈ insertSorted s l ↔ a = s ∨ a ∈ l := by
  induction l with
  | nil => simp [insertSorted]
  | cons x xs ih =>
    by_cases h : s ≤ x
    · simp [insertSorted, h]
    · simp [insertSorted, h, ih]
      tauto

theorem mem_sortStrings {a : String} {l : List String} :
    a ∈ sortStrings l ↔ a ∈ l := by
  induction l with
  | nil => simp [sortStrings]
  | cons x xs ih => simp [sortStrings, mem_insertSorted, ih]

theorem mem_sorted_needed {a : String} {r : ResolvedRule} :
    a ∈ sorted_needed r ↔ a ∈ r.needed_config := by
  simp [sorted_needed, mem_sortStrings]

theorem lookupA_cons {α β : Type} [DecidableEq α] (k k' : α) (v : β) (l : List (α × β)) :
    lookupA k ((k', v) :: l) = if k' = k then some v else lookupA k l := rfl

theorem target_to_rule_mem {rules : List ResolvedRule} {t : TargetId} {r : ResolvedRule}
    (h : target_to_rule rules t = some r) : r ∈ rules ∧ t ∈ r.resolved_outputs := by
  unfold target_to_rule at h
  refine ⟨List.mem_reverse.mp (List.mem_of_find?_eq_some h), ?_⟩
  have := List.find?_some h
  simpa using this

theorem target_to_rule_none {rules : List ResolvedRule} {t : TargetId}
    (h : target_to_rule rules t = none) : ∀ r ∈ rules, t ∉ r.resolved_outputs := by
  intro r hr hmem
  unfold target_to_rule at h
  rw [List.find?_eq_none] at h
  have := h r (List.mem_reverse.mpr hr)
  simp [hmem] at this

theorem target_to_rule_isSome {rules : List ResolvedRule} {t : TargetId} {r : ResolvedRule}
    (hr : r ∈ rules) (ht : t ∈ r.resolved_outputs) : (target_to_rule rules t).isSome := by
  cases h : target_to_rule rules t with
  | some r' => rfl
  | none => exact absurd ht (target_to_rule_none h r hr)

/-! Claim C1: a dependency cycle on the `run` path. -/

theorem cycle_toRule_bout : target_to_rule cycleRules "b_out" = some cycleRuleB := by decide

theorem cycle_toRule_aout : target_to_rule cycleRules "a_out" = some cycleRuleA := by decide

theorem cycle_run_aux (f : Nat) :
    run_rule_go cycleRules envTrue cfgEmpty f cycleRuleA (initState []) = (initState [], .div)
    ∧ run_rule_go cycleRules envTrue cfgEmpty f cycleRuleB (initState []) = (initState [], .div) := by
  induction f with
  | zero => exact ⟨rfl, rfl⟩
  | succ f ih =>
    constructor
    · simp only [run_rule_go, run_inputs, cycle_toRule_bout]
      simp only [lookupA, ih.2]
    · simp only [run_rule_go, run_inputs, cycle_toRule_aout]
      simp only [lookupA, ih.1]

/-- C1: on the rule set `A: [b_out] -> a_out`, `B: [a_out] -> b_out`,
`run("a_out")` does NOT raise `ConsistencyError`: the `_run` recursion of
`run_rule` has no cycle detection (only `_clean` does) and recurses forever
(`RunResult.div` for every fuel bound, i.e. a Python `RecursionError`).  The
fingerprint store is indeed not mutated (the final state is the initial
state).  This contradicts the claimed `ConsistencyError` naming `A -> B`. -/
theorem c1_run_cycle_diverges (fuel : Nat) :
    runner_run cycleRules envTrue cfgEmpty [] fuel "a_out" = (initState [], .div) := by
  unfold runner_run
  rw [cycle_toRule_aout]
  exact (cycle_run_aux fuel).1

/-! Claim C2: duplicate output declarations. -/

/-- C2: a rule set in which two distinct rules declare the same output is
rejected by (spec-modelled) rule-set construction with a consistency error
before any traversal: both `run` and `clean` return that error with an empty
trace (no rule body, no `cook`, no `need_rebuild`, no `clean` invocation). -/
theorem c2_duplicate_outputs_rejected (rules : List ResolvedRule) (env : EngineEnv)
    (config : ConfigMap) (db : Db) (fuel : Nat) (target : TargetId)
    (h : has_duplicate_output rules = true) :
    isengard_run rules env config db fuel target
        = (initState db, .err (.consistencyError "a target is declared as output of two rules"))
    ∧ isengard_clean rules env config db fuel target
        = (initCleanState, .err (.consistencyError "a target is declared as output of two rules"))
    ∧ (initState db).trace = [] ∧ initCleanState.trace = [] := by
  unfold isengard_run isengard_clean build_rule_set
  rw [h]
  exact ⟨rfl, rfl, rfl, rfl⟩

/-- Witness for C2 at a concrete duplicated rule set. -/
theorem c2_duplicate_outputs_rejected_witness :
    isengard_run [⟨"r1", [], ["t"], []⟩, ⟨"r2", [], ["t"], []⟩] envTrue cfgEmpty [] 9 "t"
      = (initState [], .err (.consistencyError "a target is declared as output of two rules")) :=
  (c2_duplicate_outputs_rejected [⟨"r1", [], ["t"], []⟩, ⟨"r2", [], ["t"], []⟩]
    envTrue cfgEmpty [] 9 "t" (by decide)).1

/-! Claim C3: what the run fingerprint digests. -/

/-- C3 counterexample: the configuration key names are NOT part of the
digested input.  `_compute_run_fingerprint` hashes only the rule id and
`pickle_dumps(self.config[k])` for each needed key in sorted order — never
`k` itself.  Two rules with equal ids whose distinct needed keys select equal
serialised values produce the very same digest input (and hence the same
run fingerprint), although the spec-worded digest input (with the
(key, value) pairs) distinguishes them. -/
theorem c3_counterexample :
    run_fingerprint_stream c3Cfg c3RuleX = run_fingerprint_stream c3Cfg c3RuleY
    ∧ compute_run_fingerprint c3Cfg c3RuleX = compute_run_fingerprint c3Cfg c3RuleY
    ∧ c3RuleX.needed_config ≠ c3RuleY.needed_config
    ∧ c3RuleX.id = c3RuleY.id
    ∧ run_fingerprint_stream_spec c3Cfg c3RuleX ≠ run_fingerprint_stream_spec c3Cfg c3RuleY := by
  refine ⟨rfl, rfl, by decide, rfl, by decide⟩

/-- C3 (amended): the run fingerprint digest input is derived
deterministically from the rule id and, in key-sorted order, the serialised
configuration values of the keys in `needed_config` — and from nothing else:
two configurations agreeing on every needed key of a rule give that rule the
same digest input (as a byte stream and as a store key). -/
theorem c3_fingerprint_from_id_and_needed_values (r : ResolvedRule) (c1 c2 : ConfigMap)
    (h : ∀ k ∈ r.needed_config, c1 k = c2 k) :
    compute_run_fingerprint c1 r = compute_run_fingerprint c2 r
    ∧ run_fingerprint_stream c1 r = run_fingerprint_stream c2 r := by
  have hmap : (sorted_needed r).map c1 = (sorted_needed r).map c2 :=
    List.map_congr_left (fun k hk => h k (mem_sorted_needed.mp hk))
  exact ⟨by simp [compute_run_fingerprint, hmap], by simp [run_fingerprint_stream, hmap]⟩

/-- Witness for the amended C3 at concrete rules and configurations. -/
theorem c3_fingerprint_from_id_and_needed_values_witness :
    compute_run_fingerprint c3Cfg c3RuleX
      = compute_run_fingerprint (fun k => if k = "a" then "v" else "w") c3RuleX :=
  (c3_fingerprint_from_id_and_needed_values c3RuleX c3Cfg
    (fun k => if k = "a" then "v" else "w") (by intro k hk; fin_cases hk; rfl)).1.symm ▸ rfl

/-! Claim C4: when `UnknownTarget` is raised. -/

theorem run_inputs_no_unknown (rules : List ResolvedRule) (env : EngineEnv)
    (recur : ResolvedRule → RunState → RunState × RunResult Bool)
    (hdisk : ∀ t, target_to_rule rules t = none → env.on_disk t = true)
    (hrec : ∀ r' st', ((recur r' st').2).isUnknownErr = false)
    (r : ResolvedRule) (prev : PrevRecord) :
    ∀ inputs rb tc st,
      ((run_inputs rules env recur r prev inputs rb tc st).2).isUnknownErr = false := by
  intro inputs
  induction inputs with
  | nil => intro rb tc st; rfl
  | cons t rest ih =>
    intro rb tc st
    rw [run_inputs]
    split
    next htr =>
      simp only [hdisk t htr, if_true]
      exact ih _ _ _
    next sub htr =>
      split
      next st2 b hr => exact ih _ _ _
      next st2 e hr =>
        have h := hrec sub st
        rw [hr] at h
        cases e with
        | unknownTarget msg => simp [RunResult.isUnknownErr] at h
        | consistencyError msg => rfl
        | runError i => rfl
      next st2 hr => rfl

theorem run_rule_go_no_unknown (rules : List ResolvedRule) (env : EngineEnv)
    (config : ConfigMap)
    (hdisk : ∀ t, target_to_rule rules t = none → env.on_disk t = true) :
    ∀ fuel r st, ((run_rule_go rules env config fuel r st).2).isUnknownErr = false := by
  intro fuel
  induction fuel with
  | zero => intro r st; rfl
  | succ fuel ih =>
    intro r st
    rw [run_rule_go]
    cases hae : lookupA r st.already_evaluated with
    | some b => rfl
    | none =>
      simp only
      cases hri : run_inputs rules env (fun r' st' => run_rule_go rules env config fuel r' st')
          r ((lookupA (compute_run_fingerprint config r) st.db).getD [])
          r.resolved_inputs (lookupA (compute_run_fingerprint config r) st.db).isNone [] st with
      | mk st1 res1 =>
        cases res1 with
        | err e =>
          have h := run_inputs_no_unknown rules env _ hdisk (fun r' st' => ih r' st') r
            ((lookupA (compute_run_fingerprint config r) st.db).getD [])
            r.resolved_inputs (lookupA (compute_run_fingerprint config r) st.db).isNone [] st
          rw [hri] at h
          cases e with
          | unknownTarget msg => simp [RunResult.isUnknownErr] at h
          | consistencyError msg => rfl
          | runError i => rfl
        | div => rfl
        | ok p =>
          cases p with
          | mk rb1 tc1 =>
            dsimp only
            split
            next hcond =>
              split
              next hok => rfl
              next hok => rfl
            next hcond => rfl

theorem clean_inputs_no_unknown (rules : List ResolvedRule) (env : EngineEnv)
    (recur : ResolvedRule → List ResolvedRule → CleanState → CleanState × RunResult Unit)
    (hdisk : ∀ t, target_to_rule rules t = none → env.on_disk t = true)
    (hrec : ∀ r' p' st', ((recur r' p' st').2).isUnknownErr = false)
    (subParents : List ResolvedRule) :
    ∀ inputs st,
      ((clean_inputs rules env recur subParents inputs st).2).isUnknownErr = false := by
  intro inputs
  induction inputs with
  | nil => intro st; rfl
  | cons t rest ih =>
    intro st
    rw [clean_inputs]
    split
    next htr =>
      simp only [hdisk t htr, if_true]
      exact ih _
    next sub htr =>
      by_cases hmem : sub ∈ subParents
      · rw [if_pos hmem]
        rfl
      · rw [if_neg hmem]
        split
        next st2 u hr => exact ih _
        next st2 e hr =>
          have h := hrec sub subParents st
          rw [hr] at h
          exact h
        next st2 hr => rfl

theorem clean_outputs_not_unknown (env : EngineEnv) (r : ResolvedRule) (prev : PrevRecord) :
    ∀ outs st msg, (clean_outputs env r prev outs st).2 ≠ some (.unknownTarget msg) := by
  intro outs
  induction outs with
  | nil => intro st msg h; exact Option.noConfusion h
  | cons t rest ih =>
    intro st msg
    rw [clean_outputs]
    cases hok : env.clean_ok t with
    | true =>
      simp only [hok, if_true]
      exact ih _ _
    | false =>
      intro h
      simp at h

theorem clean_go_no_unknown (rules : List ResolvedRule) (env : EngineEnv)
    (config : ConfigMap) (db : Db)
    (hdisk : ∀ t, target_to_rule rules t = none → env.on_disk t = true) :
    ∀ fuel r parents st, ((clean_go rules env config db fuel r parents st).2).isUnknownErr = false := by
  intro fuel
  induction fuel with
  | zero => intro r parents st; rfl
  | succ fuel ih =>
    intro r parents st
    rw [clean_go]
    by_cases hmem : r ∈ st.already_cleaned
    · simp only [hmem, if_true]
      rfl
    · simp only [hmem, if_false]
      cases hco : clean_outputs env r ((lookupA (compute_run_fingerprint config r) db).getD [])
          r.resolved_outputs { st with already_cleaned := r :: st.already_cleaned } with
      | mk st1 oe =>
        cases oe with
        | none =>
          exact clean_inputs_no_unknown rules env _ hdisk (fun r' p' st' => ih r' p' st') _ _ _
        | some e =>
          cases e with
          | unknownTarget msg =>
            exact absurd hco (by
              intro hco
              exact clean_outputs_not_unknown env r _ r.resolved_outputs _ msg (by rw [hco]))
          | consistencyError msg => rfl
          | runError i => rfl

/-- C4 counterexample: a requested target with no owning rule raises
`UnknownTarget` even though its handler reports `ON_DISK_TARGET = true`
(`Runner.run` and `Runner.clean` check only `target_to_rule`, lines 90-94 and
39-43), contradicting the claimed "no owning rule AND whose handler is not
ON_DISK_TARGET"; and the top-level message carries no dependency chain, just
the target. -/
theorem c4_counterexample :
    (runner_run [] envTrue cfgEmpty [] 5 "src.txt").2
        = .err (.unknownTarget (unknownTopMsg "src.txt"))
    ∧ (runner_clean [] envTrue cfgEmpty [] 5 "src.txt").2
        = .err (.unknownTarget (unknownTopMsg "src.txt"))
    ∧ target_to_rule [] "src.txt" = none
    ∧ envTrue.on_disk "src.txt" = true := by
  exact ⟨rfl, rfl, rfl, rfl⟩

/-- C4 (amended): `run(t)` and `clean(t)` raise `UnknownTarget` for the
requested target exactly when it has no owning rule, regardless of its
handler, with a message citing only the target; a depended-upon input of a
reachable rule raises `UnknownTarget` exactly when it has no owning rule and
its handler is not `ON_DISK_TARGET` — in particular, if every unowned target
is on disk, no `UnknownTarget` ever escapes a traversal that starts at an
owned target, and scenario 5's unowned non-on-disk input fails with a message
citing the needing rule. -/
theorem c4_unknown_target_characterisation (rules : List ResolvedRule) (env : EngineEnv)
    (config : ConfigMap) (db : Db) (fuel : Nat) (t : TargetId) :
    (target_to_rule rules t = none →
        (runner_run rules env config db fuel t).2 = .err (.unknownTarget (unknownTopMsg t))
        ∧ (runner_clean rules env config db fuel t).2 = .err (.unknownTarget (unknownTopMsg t)))
    ∧ ((∀ u, target_to_rule rules u = none → env.on_disk u = true) →
        ((runner_run rules env config db fuel t).2).isUnknownErr = false
          ∨ target_to_rule rules t = none)
    ∧ ((∀ u, target_to_rule rules u = none → env.on_disk u = true) →
        ((runner_clean rules env config db fuel t).2).isUnknownErr = false
          ∨ target_to_rule rules t = none)
    ∧ (runner_run [c4RuleB] c4Env cfgEmpty [] 9 "app").2
        = .err (.unknownTarget (unknownInputRunMsg "missing_virtual" c4RuleB)) := by
  refine ⟨?_, ?_, ?_, by decide⟩
  · intro h
    unfold runner_run runner_clean
    rw [h]
    exact ⟨rfl, rfl⟩
  · intro hdisk
    cases htr : target_to_rule rules t with
    | none => exact Or.inr rfl
    | some r =>
      left
      unfold runner_run
      rw [htr]
      exact run_rule_go_no_unknown rules env config hdisk fuel r (initState db)
  · intro hdisk
    cases htr : target_to_rule rules t with
    | none => exact Or.inr rfl
    | some r =>
      left
      unfold runner_clean
      rw [htr]
      exact clean_go_no_unknown rules env config db hdisk fuel r [] initCleanState

/-- Witness for the amended C4 at a concrete rule set: an owned target under
an all-on-disk environment reports no `UnknownTarget`, and an unowned
requested target errs. -/
theorem c4_unknown_target_characterisation_witness :
    ((runner_run cycleRules envTrue cfgEmpty [] 3 "a_out").2).isUnknownErr = false
      ∨ target_to_rule cycleRules "a_out" = none := by
  exact (c4_unknown_target_characterisation cycleRules envTrue cfgEmpty [] 3 "a_out").2.1
    (fun u _ => rfl)

/-! Claims C9 and C10: the clean traversal. -/

theorem trace_addCleanEvent (e e' : Event) (st : CleanState) :
    e ∈ (addCleanEvent e' st).trace ↔ e = e' ∨ e ∈ st.trace := by
  simp [addCleanEvent]

theorem cleaned_addCleanEvent (e' : Event) (st : CleanState) :
    (addCleanEvent e' st).already_cleaned = st.already_cleaned := rfl

theorem clean_outputs_spec (env : EngineEnv) (r : ResolvedRule) (prev : PrevRecord) :
    ∀ outs st st' oe, clean_outputs env r prev outs st = (st', oe) →
      st'.already_cleaned = st.already_cleaned
      ∧ (∀ e ∈ st.trace, e ∈ st'.trace)
      ∧ (∀ t, Event.cleanTarget t ∈ st'.trace → Event.cleanTarget t ∈ st.trace ∨ t ∈ outs)
      ∧ (oe = none → ∀ t ∈ outs, Event.cleanTarget t ∈ st'.trace)
      ∧ (∀ e', oe = some e' → e' = .runError r.id) := by
  intro outs
  induction outs with
  | nil =>
    intro st st' oe h
    rw [clean_outputs] at h
    cases h
    exact ⟨rfl, fun e he => he, fun t ht => Or.inl ht,
      fun _ t ht => absurd ht (List.not_mem_nil t), fun e' he' => Option.noConfusion he'⟩
  | cons t rest ih =>
    intro st st' oe h
    rw [clean_outputs] at h
    split at h
    next hok =>
      obtain ⟨h1, h2, h3, h4, h5⟩ := ih _ _ _ h
      refine ⟨by rw [h1]; rfl, ?_, ?_, ?_, h5⟩
      · intro e he
        exact h2 e ((trace_addCleanEvent e _ _).mpr (Or.inr
          ((trace_addCleanEvent e _ _).mpr (Or.inr he))))
      · intro u hu
        rcases h3 u hu with hin | hin
        · rcases (trace_addCleanEvent _ _ _).mp hin with h' | h'
          · exact Or.inr (by injection h' with h''; exact h'' ▸ List.mem_cons_self _ _)
          · rcases (trace_addCleanEvent _ _ _).mp h' with h'' | h''
            · exact absurd h'' (by simp)
            · exact Or.inl h''
        · exact Or.inr (List.mem_cons_of_mem _ hin)
      · intro hoe u hu
        rcases List.mem_cons.mp hu with h' | h'
        · subst h'
          exact h2 _ ((trace_addCleanEvent _ _ _).mpr (Or.inl rfl))
        · exact h4 hoe u h'
    next hok =>
      cases h
      refine ⟨rfl, ?_, ?_, ?_, ?_⟩
      · intro e he
        exact (trace_addCleanEvent e _ _).mpr (Or.inr
          ((trace_addCleanEvent e _ _).mpr (Or.inr he)))
      · intro u hu
        rcases (trace_addCleanEvent _ _ _).mp hu with h' | h'
        · exact Or.inr (by injection h' with h''; exact h'' ▸ List.mem_cons_self _ _)
        · rcases (trace_addCleanEvent _ _ _).mp h' with h'' | h''
          · exact absurd h'' (by simp)
          · exact Or.inl h''
      · intro hoe
        exact absurd hoe (by simp)
      · intro e' he'
        cases he'
        rfl

theorem clean_inputs_spec (rules : List ResolvedRule) (env : EngineEnv)
    (recur : ResolvedRule → List ResolvedRule → CleanState → CleanState × RunResult Unit)
    (hrec : ∀ r' p' st st' res, r' ∈ rules → recur r' p' st = (st', res) →
      (∀ r'' ∈ st.already_cleaned, r'' ∈ st'.already_cleaned)
      ∧ (∀ e ∈ st.trace, e ∈ st'.trace)
      ∧ (CleanInv rules st → CleanInv rules st')
      ∧ (AllCleaned st → (∀ i, res ≠ .err (.runError i)) → AllCleaned st'))
    (subParents : List ResolvedRule) :
    ∀ inputs st st' res, clean_inputs rules env recur subParents inputs st = (st', res) →
      (∀ r'' ∈ st.already_cleaned, r'' ∈ st'.already_cleaned)
      ∧ (∀ e ∈ st.trace, e ∈ st'.trace)
      ∧ (CleanInv rules st → CleanInv rules st')
      ∧ (AllCleaned st → (∀ i, res ≠ .err (.runError i)) → AllCleaned st') := by
  intro inputs
  induction inputs with
  | nil =>
    intro st st' res h
    rw [clean_inputs] at h
    cases h
    exact ⟨fun r'' h'' => h'', fun e he => he, fun hi => hi, fun ha _ => ha⟩
  | cons t rest ih =>
    intro st st' res h
    rw [clean_inputs] at h
    split at h
    next htr =>
      split at h
      next hdk => exact ih _ _ _ h
      next hdk =>
        cases h
        exact ⟨fun r'' h'' => h'', fun e he => he, fun hi => hi, fun ha _ => ha⟩
    next sub htr =>
      have hsubmem : sub ∈ rules := (target_to_rule_mem htr).1
      split at h
      next hmem =>
        cases h
        exact ⟨fun r'' h'' => h'', fun e he => he, fun hi => hi, fun ha _ => ha⟩
      next hmem =>
        cases hrc : recur sub subParents st with
        | mk st2 res2 =>
          rw [hrc] at h
          cases res2 with
          | ok u =>
            dsimp only at h
            obtain ⟨a1, a2, a3, a4⟩ := hrec sub subParents st st2 (.ok u) hsubmem hrc
            obtain ⟨b1, b2, b3, b4⟩ := ih _ _ _ h
            exact ⟨fun r'' h'' => b1 r'' (a1 r'' h''), fun e he => b2 e (a2 e he),
              fun hi => b3 (a3 hi),
              fun ha hres => b4 (a4 ha (fun i hi => nomatch hi)) hres⟩
          | err e =>
            dsimp only at h
            cases h
            exact hrec sub subParents st _ (.err e) hsubmem hrc
          | div =>
            dsimp only at h
            cases h
            obtain ⟨a1, a2, a3, a4⟩ := hrec sub subParents st _ .div hsubmem hrc
            exact ⟨a1, a2, a3, fun ha _ => a4 ha (fun i hi => nomatch hi)⟩

theorem clean_go_spec (rules : List ResolvedRule) (env : EngineEnv) (config : ConfigMap)
    (db : Db) :
    ∀ fuel r parents st st' res, r ∈ rules →
      clean_go rules env config db fuel r parents st = (st', res) →
      (∀ r'' ∈ st.already_cleaned, r'' ∈ st'.already_cleaned)
      ∧ (∀ e ∈ st.trace, e ∈ st'.trace)
      ∧ (CleanInv rules st → CleanInv rules st')
      ∧ (AllCleaned st → (∀ i, res ≠ .err (.runError i)) → AllCleaned st') := by
  intro fuel
  induction fuel with
  | zero =>
    intro r parents st st' res hr h
    cases h
    exact ⟨fun r'' h'' => h'', fun e he => he, fun hi => hi, fun ha _ => ha⟩
  | succ fuel ih =>
    intro r parents st st' res hr h
    rw [clean_go] at h
    split at h
    next hmem =>
      cases h
      exact ⟨fun r'' h'' => h'', fun e he => he, fun hi => hi, fun ha _ => ha⟩
    next hmem =>
      dsimp only at h
      split at h
      next st1 e hco =>
        cases h
        obtain ⟨c1, c2, c3, c4, c5⟩ := clean_outputs_spec env r _ _ _ _ _ hco
        refine ⟨?_, ?_, ?_, ?_⟩
        · intro r'' h''
          rw [c1]
          exact List.mem_cons_of_mem _ h''
        · exact c2
        · intro ⟨i1, i2⟩
          constructor
          · intro r' hr'
            rw [c1] at hr'
            rcases List.mem_cons.mp hr' with h' | h'
            · exact h' ▸ hr
            · exact i1 r' h'
          · intro u hu
            rcases c3 u hu with h' | h'
            · obtain ⟨r', hr'1, hr'2⟩ := i2 u h'
              exact ⟨r', by rw [c1]; exact List.mem_cons_of_mem _ hr'1, hr'2⟩
            · exact ⟨r, by rw [c1]; exact List.mem_cons_self _ _, h'⟩
        · intro _ hres
          exact absurd (c5 e rfl) (fun he => hres r.id (by rw [he]))
      next st1 hco =>
        obtain ⟨c1, c2, c3, c4, c5⟩ := clean_outputs_spec env r _ _ _ _ _ hco
        obtain ⟨d1, d2, d3, d4⟩ := clean_inputs_spec rules env _
          (fun r' p' stA stB resB hr' hrecEq => ih r' p' stA stB resB hr' hrecEq) _ _ _ _ _ h
        refine ⟨?_, ?_, ?_, ?_⟩
        · intro r'' h''
          exact d1 r'' (by rw [c1]; exact List.mem_cons_of_mem _ h'')
        · intro e he
          exact d2 e (c2 e he)
        · intro ⟨i1, i2⟩
          refine d3 ⟨?_, ?_⟩
          · intro r' hr'
            rw [c1] at hr'
            rcases List.mem_cons.mp hr' with h' | h'
            · exact h' ▸ hr
            · exact i1 r' h'
          · intro u hu
            rcases c3 u hu with h' | h'
            · obtain ⟨r', hr'1, hr'2⟩ := i2 u h'
              exact ⟨r', by rw [c1]; exact List.mem_cons_of_mem _ hr'1, hr'2⟩
            · exact ⟨r, by rw [c1]; exact List.mem_cons_self _ _, h'⟩
        · intro ha hres
          refine d4 ?_ hres
          intro r' hr' u hu
          rw [c1] at hr'
          rcases List.mem_cons.mp hr' with h' | h'
          · exact c4 rfl u (h' ▸ hu)
          · exact c2 _ (ha r' h' u hu)

/-- C9: `clean` invokes `handler.clean` only on targets in the
`resolved_outputs` of some rule of the rule set that was actually entered by
the traversal; in particular an on-disk input with no owning rule (a
user-owned source prerequisite) is never cleaned. -/
theorem c9_clean_only_owned_outputs (rules : List ResolvedRule) (env : EngineEnv)
    (config : ConfigMap) (db : Db) (fuel : Nat) (target : TargetId)
    (st' : CleanState) (res : RunResult Unit)
    (h : runner_clean rules env config db fuel target = (st', res)) :
    (∀ t, Event.cleanTarget t ∈ st'.trace →
      ∃ r, r ∈ rules ∧ r ∈ st'.already_cleaned ∧ t ∈ r.resolved_outputs)
    ∧ (∀ t, target_to_rule rules t = none → Event.cleanTarget t ∉ st'.trace) := by
  have key : ∀ t, Event.cleanTarget t ∈ st'.trace →
      ∃ r, r ∈ rules ∧ r ∈ st'.already_cleaned ∧ t ∈ r.resolved_outputs := by
    unfold runner_clean at h
    cases htr : target_to_rule rules target with
    | none =>
      rw [htr] at h
      cases h
      intro t ht
      exact absurd ht (List.not_mem_nil _)
    | some r =>
      rw [htr] at h
      obtain ⟨_, _, hinv, _⟩ := clean_go_spec rules env config db fuel r [] initCleanState
        st' res (target_to_rule_mem htr).1 h
      obtain ⟨i1, i2⟩ := hinv ⟨fun r' hr' => absurd hr' (List.not_mem_nil _),
        fun t ht => absurd ht (List.not_mem_nil _)⟩
      intro t ht
      obtain ⟨r', hr'1, hr'2⟩ := i2 t ht
      exact ⟨r', i1 r' hr'1, hr'1, hr'2⟩
  refine ⟨key, ?_⟩
  intro t htr hmem
  obtain ⟨r', hr'1, _, hr'3⟩ := key t hmem
  exact absurd (target_to_rule_isSome hr'1 hr'3) (by rw [htr]; simp)

/-- Witness for C9: in the concrete cyclic clean, no `handler.clean` was
invoked on the unowned target `zzz`. -/
theorem c9_clean_only_owned_outputs_witness :
    Event.cleanTarget "zzz" ∉ (runner_clean cycleRules envTrue cfgEmpty [] 9 "a_out").1.trace :=
  (c9_clean_only_owned_outputs cycleRules envTrue cfgEmpty [] 9 "a_out"
    (runner_clean cycleRules envTrue cfgEmpty [] 9 "a_out").1
    (runner_clean cycleRules envTrue cfgEmpty [] 9 "a_out").2 rfl).2 "zzz" (by decide)

/-- C10: `clean` is not atomic with respect to `ConsistencyError`: whenever
`clean(t)` raises it (a cycle was detected mid-traversal), every rule entered
up to that point (the `already_cleaned` set) has already had `handler.clean`
invoked on every one of its outputs — those filesystem side effects are not
rolled back. -/
theorem c10_clean_cycle_keeps_side_effects (rules : List ResolvedRule) (env : EngineEnv)
    (config : ConfigMap) (db : Db) (fuel : Nat) (target : TargetId)
    (st' : CleanState) (msg : String)
    (h : runner_clean rules env config db fuel target = (st', .err (.consistencyError msg))) :
    ∀ r ∈ st'.already_cleaned, ∀ t ∈ r.resolved_outputs, Event.cleanTarget t ∈ st'.trace := by
  unfold runner_clean at h
  cases htr : target_to_rule rules target with
  | none =>
    rw [htr] at h
    cases h
  | some r =>
    rw [htr] at h
    obtain ⟨_, _, _, hall⟩ := clean_go_spec rules env config db fuel r [] initCleanState
      st' _ (target_to_rule_mem htr).1 h
    exact hall (fun r' hr' => absurd hr' (List.not_mem_nil _)) (fun i hi => by cases hi)

/-- Witness for C10: the concrete cyclic clean raises `ConsistencyError`
naming `A -> B` and both entered rules have all their outputs cleaned. -/
theorem c10_clean_cycle_keeps_side_effects_witness :
    Event.cleanTarget "a_out" ∈ (runner_clean cycleRules envTrue cfgEmpty [] 9 "a_out").1.trace
    ∧ Event.cleanTarget "b_out" ∈ (runner_clean cycleRules envTrue cfgEmpty [] 9 "a_out").1.trace := by
  have hA := c10_clean_cycle_keeps_side_effects cycleRules envTrue cfgEmpty [] 9 "a_out"
    (runner_clean cycleRules envTrue cfgEmpty [] 9 "a_out").1
    "Recursion detection in rules A -> B" (by decide)
  exact ⟨hA cycleRuleA (by decide) "a_out" (by decide), hA cycleRuleB (by decide) "b_out" (by decide)⟩

/-! Base state-evolution lemmas for the run traversal. -/

theorem trace_addEvent (e e' : Event) (st : RunState) :
    e ∈ (addEvent e' st).trace ↔ e = e' ∨ e ∈ st.trace := by
  simp [addEvent]

theorem run_outputs_state (env : EngineEnv) (prev : PrevRecord) :
    ∀ outs rb tc st rb' tc' st', run_outputs env prev outs rb tc st = (rb', tc', st') →
      st'.already_evaluated = st.already_evaluated
      ∧ st'.db = st.db
      ∧ st'.trace = (outs.map Event.cook).reverse ++ st.trace
      ∧ tc' = tc ++ outs := by
  intro outs
  induction outs with
  | nil =>
    intro rb tc st rb' tc' st' h
    rw [run_outputs] at h
    cases h
    exact ⟨rfl, rfl, rfl, (List.append_nil tc).symm⟩
  | cons t rest ih =>
    intro rb tc st rb' tc' st' h
    rw [run_outputs] at h
    obtain ⟨e1, e2, e3, e4⟩ := ih _ _ _ _ _ _ h
    refine ⟨e1, e2, ?_, ?_⟩
    · rw [e3]
      simp [addEvent]
    · rw [e4]
      simp

theorem commit_targets_state (env : EngineEnv) :
    ∀ tcs st fps st', commit_targets env tcs st = (fps, st') →
      st'.already_evaluated = st.already_evaluated
      ∧ st'.db = st.db
      ∧ st'.trace = st.trace := by
  intro tcs
  induction tcs with
  | nil =>
    intro st fps st' h
    rw [commit_targets] at h
    cases h
    exact ⟨rfl, rfl, rfl⟩
  | cons t rest ih =>
    intro st fps st' h
    rw [commit_targets] at h
    dsimp only at h
    cases hrec : commit_targets env rest
        { st with targets_eval_cache :=
            (t, (((lookupA t st.targets_eval_cache).getD (none, false)).1, true))
              :: st.targets_eval_cache } with
    | mk fps2 st2 =>
      rw [hrec] at h
      dsimp only at h
      cases h
      obtain ⟨f1, f2, f3⟩ := ih _ _ _ hrec
      exact ⟨f1, f2, f3⟩

/-- Full case analysis of one `_run` step (`run_rule_go` at successor fuel):
fast track, input-phase error or divergence, skip, failing body, or
successful rebuild with commit. -/
theorem run_rule_go_succ_cases (rules : List ResolvedRule) (env : EngineEnv)
    (config : ConfigMap) (fuel : Nat) (r : ResolvedRule) (st st' : RunState)
    (res : RunResult Bool)
    (h : run_rule_go rules env config (fuel + 1) r st = (st', res)) :
    (∃ b, lookupA r st.already_evaluated = some b ∧ st' = st ∧ res = .ok b)
    ∨ (lookupA r st.already_evaluated = none ∧
       ∃ st1,
        (∃ e, run_inputs rules env (fun r' s' => run_rule_go rules env config fuel r' s') r
            ((lookupA (compute_run_fingerprint config r) st.db).getD [])
            r.resolved_inputs (lookupA (compute_run_fingerprint config r) st.db).isNone [] st
              = (st1, .err e) ∧ st' = st1 ∧ res = .err e)
        ∨ (run_inputs rules env (fun r' s' => run_rule_go rules env config fuel r' s') r
            ((lookupA (compute_run_fingerprint config r) st.db).getD [])
            r.resolved_inputs (lookupA (compute_run_fingerprint config r) st.db).isNone [] st
              = (st1, .div) ∧ st' = st1 ∧ res = .div)
        ∨ (∃ rb1 tc1 rb tc st2,
            run_inputs rules env (fun r' s' => run_rule_go rules env config fuel r' s') r
              ((lookupA (compute_run_fingerprint config r) st.db).getD [])
              r.resolved_inputs (lookupA (compute_run_fingerprint config r) st.db).isNone [] st
                = (st1, .ok (rb1, tc1))
            ∧ run_outputs env ((lookupA (compute_run_fingerprint config r) st.db).getD [])
                r.resolved_outputs rb1 tc1 st1 = (rb, tc, st2)
            ∧ ((rb = false
                ∧ st' = { st2 with already_evaluated := (r, false) :: st2.already_evaluated }
                ∧ res = .ok false)
              ∨ (rb = true ∧ env.run_ok r.id = false
                ∧ st' = addEvent (.runBody r.id)
                    { st2 with already_evaluated := (r, true) :: st2.already_evaluated }
                ∧ res = .err (.runError r.id))
              ∨ (rb = true ∧ env.run_ok r.id = true
                ∧ ∃ fps st3,
                    commit_targets env tc (addEvent (.runBody r.id)
                      { st2 with already_evaluated := (r, true) :: st2.already_evaluated })
                      = (fps, st3)
                    ∧ st' = addEvent (.commit r.id)
                        { st3 with db := (compute_run_fingerprint config r, fps) :: st3.db }
                    ∧ res = .ok true)))) := by
  rw [run_rule_go] at h
  cases hae : lookupA r st.already_evaluated with
  | some b =>
    rw [hae] at h
    dsimp only at h
    cases h
    exact Or.inl ⟨b, rfl, rfl, rfl⟩
  | none =>
    rw [hae] at h
    dsimp only at h
    refine Or.inr ⟨rfl, ?_⟩
    cases hri : run_inputs rules env (fun r' s' => run_rule_go rules env config fuel r' s') r
        ((lookupA (compute_run_fingerprint config r) st.db).getD [])
        r.resolved_inputs (lookupA (compute_run_fingerprint config r) st.db).isNone [] st with
    | mk st1 res1 =>
      rw [hri] at h
      cases res1 with
      | err e =>
        dsimp only at h
        cases h
        exact ⟨_, Or.inl ⟨_, rfl, rfl, rfl⟩⟩
      | div =>
        dsimp only at h
        cases h
        exact ⟨_, Or.inr (Or.inl ⟨rfl, rfl, rfl⟩)⟩
      | ok p =>
        cases p with
        | mk rb1 tc1 =>
          dsimp only at h
          cases hro : run_outputs env ((lookupA (compute_run_fingerprint config r) st.db).getD [])
              r.resolved_outputs rb1 tc1 st1 with
          | mk rb rest2 =>
            cases rest2 with
            | mk tc st2 =>
              rw [hro] at h
              dsimp only at h
              refine ⟨st1, Or.inr (Or.inr ⟨rb1, tc1, rb, tc, st2, rfl, hro, ?_⟩)⟩
              cases rb with
              | false =>
                rw [if_neg Bool.false_ne_true] at h
                cases h
                exact Or.inl ⟨rfl, rfl, rfl⟩
              | true =>
                rw [if_pos rfl] at h
                cases hok : env.run_ok r.id with
                | false =>
                  rw [hok, if_neg Bool.false_ne_true] at h
                  cases h
                  exact Or.inr (Or.inl ⟨rfl, rfl, rfl, rfl⟩)
                | true =>
                  rw [hok, if_pos rfl] at h
                  cases hct : commit_targets env tc (addEvent (.runBody r.id)
                      { st2 with already_evaluated := (r, true) :: st2.already_evaluated }) with
                  | mk fps st3 =>
                    rw [hct] at h
                    dsimp only at h
                    cases h
                    exact Or.inr (Or.inr ⟨rfl, rfl, fps, st3, rfl, rfl, rfl⟩)

/-! Rank lemmas: with an acyclicity certificate (a rank decreasing along
dependency edges), a traversal starting at `r` only adds `already_evaluated`
entries for rules of rank at most `rank r`; during the input phase, strictly
less. -/

theorem run_inputs_rank (rules : List ResolvedRule) (env : EngineEnv)
    (recur : ResolvedRule → RunState → RunState × RunResult Bool)
    (rank : ResolvedRule → Nat) (r : ResolvedRule)
    (hrec : ∀ r' st st' res, r' ∈ rules → recur r' st = (st', res) →
      ∀ r0, lookupA r0 st.already_evaluated = none →
        lookupA r0 st'.already_evaluated ≠ none → rank r0 ≤ rank r')
    (hedge : ∀ t ∈ r.resolved_inputs, ∀ r', target_to_rule rules t = some r' → rank r' < rank r)
    (prev : PrevRecord) :
    ∀ inputs, (∀ t ∈ inputs, t ∈ r.resolved_inputs) →
      ∀ rb tc st st' res, run_inputs rules env recur r prev inputs rb tc st = (st', res) →
      ∀ r0, lookupA r0 st.already_evaluated = none →
        lookupA r0 st'.already_evaluated ≠ none → rank r0 < rank r := by
  intro inputs
  induction inputs with
  | nil =>
    intro _ rb tc st st' res h r0 h0 h1
    rw [run_inputs] at h
    cases h
    exact absurd h0 h1
  | cons t rest ih =>
    intro hin rb tc st st' res h r0 h0 h1
    rw [run_inputs] at h
    split at h
    next htr =>
      split at h
      next hdk =>
        exact ih (fun u hu => hin u (List.mem_cons_of_mem t hu)) _ _ _ _ _ h r0 h0 h1
      next hdk =>
        cases h
        exact absurd h0 h1
    next sub htr =>
      have hsubmem : sub ∈ rules := (target_to_rule_mem htr).1
      have hlt : rank sub < rank r := hedge t (hin t (List.mem_cons_self t rest)) sub htr
      cases hrc : recur sub st with
      | mk st2 res2 =>
        rw [hrc] at h
        cases res2 with
        | ok b =>
          dsimp only at h
          by_cases h2 : lookupA r0 st2.already_evaluated = none
          · exact ih (fun u hu => hin u (List.mem_cons_of_mem t hu)) _ _ _ _ _ h r0 h2 h1
          · exact lt_of_le_of_lt (hrec sub st st2 (.ok b) hsubmem hrc r0 h0 h2) hlt
        | err e =>
          dsimp only at h
          cases h
          exact lt_of_le_of_lt (hrec sub st _ (.err e) hsubmem hrc r0 h0 h1) hlt
        | div =>
          dsimp only at h
          cases h
          exact lt_of_le_of_lt (hrec sub st _ .div hsubmem hrc r0 h0 h1) hlt

theorem run_rule_go_rank (rules : List ResolvedRule) (env : EngineEnv) (config : ConfigMap)
    (rank : ResolvedRule → Nat)
    (hrank : ∀ r ∈ rules, ∀ t ∈ r.resolved_inputs, ∀ r',
      target_to_rule rules t = some r' → rank r' < rank r) :
    ∀ fuel r st st' res, r ∈ rules → run_rule_go rules env config fuel r st = (st', res) →
      ∀ r0, lookupA r0 st.already_evaluated = none →
        lookupA r0 st'.already_evaluated ≠ none → rank r0 ≤ rank r := by
  intro fuel
  induction fuel with
  | zero =>
    intro r st st' res hr h r0 h0 h1
    cases h
    exact absurd h0 h1
  | succ fuel ih =>
    intro r st st' res hr h r0 h0 h1
    have hinr := run_inputs_rank rules env _ rank r
      (fun r' stA stB resB hr' heq => ih r' stA stB resB hr' heq)
      (hrank r hr) ((lookupA (compute_run_fingerprint config r) st.db).getD [])
      r.resolved_inputs (fun u hu => hu)
    rcases run_rule_go_succ_cases rules env config fuel r st st' res h with
      ⟨b, hae, rfl, rfl⟩ | ⟨hae, st1, ⟨e, hri, rfl, rfl⟩ | ⟨hri, rfl, rfl⟩ |
        ⟨rb1, tc1, rb, tc, st2, hri, hro, hcase⟩⟩
    · exact absurd h0 h1
    · exact le_of_lt (hinr _ _ _ _ _ hri r0 h0 h1)
    · exact le_of_lt (hinr _ _ _ _ _ hri r0 h0 h1)
    · obtain ⟨hae1, _, _⟩ := run_outputs_state env _ _ _ _ _ _ _ _ hro
      have keystep : ∀ stx : RunState, stx.already_evaluated = (r, rb) :: st2.already_evaluated →
          st' = stx → rank r0 ≤ rank r := by
        intro stx hx hst
        by_cases hr0 : r = r0
        · exact le_of_eq (congrArg rank hr0.symm)
        · have : lookupA r0 st2.already_evaluated ≠ none := by
            intro hnone
            apply h1
            rw [hst, hx, lookupA_cons, if_neg hr0, hnone]
          rw [hae1] at this
          exact le_of_lt (hinr _ _ _ _ _ hri r0 h0 this)
      rcases hcase with ⟨hrb, hst, hres⟩ | ⟨hrb, hok, hst, hres⟩ | ⟨hrb, hok, fps, st3, hct, hst, hres⟩
      · subst hrb
        exact keystep _ rfl hst
      · subst hrb
        exact keystep _ rfl hst
      · subst hrb
        obtain ⟨hct1, _, _⟩ := commit_targets_state env _ _ _ _ hct
        refine keystep { st' with already_evaluated := (r, true) :: st2.already_evaluated } rfl ?_
        rw [hst]
        have : st3.already_evaluated = (r, true) :: st2.already_evaluated := by
          rw [hct1]
          rfl
        simp [addEvent, this]

/-! Claim C5: how often targets are cooked. -/

theorem cook_injective : Function.Injective Event.cook := by
  intro a b h
  injection h

theorem count_cook_addEvent_ne (t : TargetId) (e : Event) (st : RunState)
    (hne : e ≠ Event.cook t) :
    List.count (Event.cook t) (addEvent e st).trace = List.count (Event.cook t) st.trace := by
  simp [addEvent, List.count_cons, hne]

theorem run_inputs_cook (rules : List ResolvedRule) (env : EngineEnv)
    (recur : ResolvedRule → RunState → RunState × RunResult Bool)
    (r : ResolvedRule) (prev : PrevRecord)
    (hrec : ∀ r' st st' res, r' ∈ rules → recur r' st = (st', res) →
      CookInv rules st → CookInv rules st') :
    ∀ inputs rb tc st st' res, run_inputs rules env recur r prev inputs rb tc st = (st', res) →
      CookInv rules st → CookInv rules st' := by
  intro inputs
  induction inputs with
  | nil =>
    intro rb tc st st' res h hInv
    rw [run_inputs] at h
    cases h
    exact hInv
  | cons t rest ih =>
    intro rb tc st st' res h hInv
    rw [run_inputs] at h
    split at h
    next htr =>
      have hstep : CookInv rules
          { addEvent (Event.cook t) st with targets_eval_cache :=
              (t, (lookupA t prev,
                match lookupA t prev with
                | some fp => env.need_rebuild t (lookupA t prev) fp
                | none => true)) :: (addEvent (Event.cook t) st).targets_eval_cache } := by
        intro r' t' hr' ht'
        obtain ⟨g1, g2⟩ := hInv r' t' hr' ht'
        have htne : t' ≠ t := by
          intro hEq
          exact absurd (target_to_rule_isSome hr' (hEq ▸ ht')) (by rw [htr]; simp)
        have hne2 : ¬ t = t' := fun hEq => htne hEq.symm
        have hcnt : List.count (Event.cook t') (Event.cook t :: st.trace)
            = List.count (Event.cook t') st.trace := by
          rw [List.count_cons]
          simp [hne2]
        constructor
        · show List.count (Event.cook t') (Event.cook t :: st.trace) ≤ 1
          rw [hcnt]; exact g1
        · intro hae
          show List.count (Event.cook t') (Event.cook t :: st.trace) = 0
          rw [hcnt]; exact g2 hae
      split at h
      next hdk => exact ih _ _ _ _ _ h hstep
      next hdk =>
        cases h
        intro r' t' hr' ht'
        obtain ⟨g1, g2⟩ := hInv r' t' hr' ht'
        have htne : t' ≠ t := by
          intro hEq
          exact absurd (target_to_rule_isSome hr' (hEq ▸ ht')) (by rw [htr]; simp)
        have hne2 : ¬ t = t' := fun hEq => htne hEq.symm
        have hcnt : List.count (Event.cook t') (Event.cook t :: st.trace)
            = List.count (Event.cook t') st.trace := by
          rw [List.count_cons]
          simp [hne2]
        constructor
        · show List.count (Event.cook t') (Event.cook t :: st.trace) ≤ 1
          rw [hcnt]; exact g1
        · intro hae
          show List.count (Event.cook t') (Event.cook t :: st.trace) = 0
          rw [hcnt]; exact g2 hae
    next sub htr =>
      have hsubmem : sub ∈ rules := (target_to_rule_mem htr).1
      cases hrc : recur sub st with
      | mk st2 res2 =>
        rw [hrc] at h
        cases res2 with
        | ok b =>
          dsimp only at h
          exact ih _ _ _ _ _ h (hrec sub st st2 (.ok b) hsubmem hrc hInv)
        | err e =>
          dsimp only at h
          cases h
          exact hrec sub st _ (.err e) hsubmem hrc hInv
        | div =>
          dsimp only at h
          cases h
          exact hrec sub st _ .div hsubmem hrc hInv

theorem run_rule_go_cook (rules : List ResolvedRule) (env : EngineEnv) (config : ConfigMap)
    (rank : ResolvedRule → Nat)
    (hrank : ∀ r ∈ rules, ∀ t ∈ r.resolved_inputs, ∀ r',
      target_to_rule rules t = some r' → rank r' < rank r)
    (hsep : ∀ r1 ∈ rules, ∀ r2 ∈ rules, r1 ≠ r2 → ∀ t, t ∈ r1.resolved_outputs →
      t ∉ r2.resolved_outputs)
    (hnod : ∀ r ∈ rules, r.resolved_outputs.Nodup) :
    ∀ fuel r st st' res, r ∈ rules → run_rule_go rules env config fuel r st = (st', res) →
      CookInv rules st → CookInv rules st' := by
  intro fuel
  induction fuel with
  | zero =>
    intro r st st' res hr h hInv
    cases h
    exact hInv
  | succ fuel ih =>
    intro r st st' res hr h hInv
    rcases run_rule_go_succ_cases rules env config fuel r st st' res h with
      ⟨b, hae, rfl, rfl⟩ | ⟨hae, st1, ⟨e, hri, rfl, rfl⟩ | ⟨hri, rfl, rfl⟩ |
        ⟨rb1, tc1, rb, tc, st2, hri, hro, hcase⟩⟩
    · exact hInv
    · exact run_inputs_cook rules env _ r _
        (fun r' a b' c hm heq => ih r' a b' c hm heq) _ _ _ _ _ _ hri hInv
    · exact run_inputs_cook rules env _ r _
        (fun r' a b' c hm heq => ih r' a b' c hm heq) _ _ _ _ _ _ hri hInv
    · have hInv1 : CookInv rules st1 := run_inputs_cook rules env _ r _
        (fun r' a b' c hm heq => ih r' a b' c hm heq) _ _ _ _ _ _ hri hInv
      have hrnot : lookupA r st1.already_evaluated = none := by
        by_contra hcon
        exact lt_irrefl _ (run_inputs_rank rules env _ rank r
          (fun r' a b' c hm heq => run_rule_go_rank rules env config rank hrank fuel r' a b' c hm heq)
          (hrank r hr) _ r.resolved_inputs (fun u hu => hu) _ _ _ _ _ hri r hae hcon)
      obtain ⟨ho_ae, ho_db, ho_tr, ho_tc⟩ := run_outputs_state env _ _ _ _ _ _ _ _ hro
      have hfinal : ∀ (extra : List Event) (bb : Bool) (stF : RunState),
          (∀ u, Event.cook u ∉ extra) →
          stF.already_evaluated = (r, bb) :: st2.already_evaluated →
          stF.trace = extra ++ st2.trace → CookInv rules stF := by
        intro extra bb stF hextra hFae hFtr
        intro r' t' hr' ht'
        have hsplit : List.count (Event.cook t') stF.trace
            = List.count (Event.cook t') st2.trace := by
          rw [hFtr, List.count_append, List.count_eq_zero.mpr (hextra t'), Nat.zero_add]
        have hsplit2 : List.count (Event.cook t') st2.trace
            = List.count t' r.resolved_outputs + List.count (Event.cook t') st1.trace := by
          rw [ho_tr, List.count_append, List.count_reverse,
            List.count_map_of_injective _ _ cook_injective]
        by_cases hrr : r' = r
        · subst hrr
          have h0 : List.count (Event.cook t') st1.trace = 0 :=
            (hInv1 r' t' hr' ht').2 hrnot
          have h1 : List.count t' r'.resolved_outputs = 1 :=
            List.count_eq_one_of_mem (hnod r' hr') ht'
          constructor
          · rw [hsplit, hsplit2, h0, h1]
          · intro hFnone
            rw [hFae, lookupA_cons, if_pos rfl] at hFnone
            exact Option.noConfusion hFnone
        · have hnotout : t' ∉ r.resolved_outputs :=
            hsep r' hr' r hr hrr t' ht'
          have h1 : List.count t' r.resolved_outputs = 0 := List.count_eq_zero.mpr hnotout
          obtain ⟨g1, g2⟩ := hInv1 r' t' hr' ht'
          constructor
          · rw [hsplit, hsplit2, h1, Nat.zero_add]
            exact g1
          · intro hFnone
            rw [hFae, lookupA_cons, if_neg (fun hEq => hrr hEq.symm)] at hFnone
            rw [ho_ae] at hFnone
            rw [hsplit, hsplit2, h1, Nat.zero_add]
            exact g2 hFnone
      rcases hcase with ⟨hrb, hst, hres⟩ | ⟨hrb, hok, hst, hres⟩ |
        ⟨hrb, hok, fps, st3, hct, hst, hres⟩
      · subst hst
        exact hfinal [] false _ (fun u => List.not_mem_nil _) rfl (by simp)
      · subst hst
        refine hfinal [Event.runBody r.id] true _ (fun u => by simp) rfl ?_
        simp [addEvent]
      · subst hst
        obtain ⟨hc_ae, hc_db, hc_tr⟩ := commit_targets_state env _ _ _ _ hct
        refine hfinal [Event.commit r.id, Event.runBody r.id] true _ (fun u => by simp) ?_ ?_
        · show st3.already_evaluated = (r, true) :: st2.already_evaluated
          rw [hc_ae]
          rfl
        · show Event.commit r.id :: st3.trace = _
          rw [hc_tr]
          simp [addEvent]

/-- C5 counterexample: the unowned on-disk input `s`, appearing in the
`resolved_inputs` of the two reachable rules `A` and `B`, is cooked TWICE in
a single successful `run("b")`: the input loop (lines 127-162) cooks an
unowned input unconditionally, without consulting `targets_eval_cache`. -/
theorem c5_counterexample :
    List.count (Event.cook "s") (runner_run c5Rules envTrue cfgEmpty [] 9 "b").1.trace = 2
    ∧ (runner_run c5Rules envTrue cfgEmpty [] 9 "b").2 = .ok true
    ∧ target_to_rule c5Rules "s" = none
    ∧ envTrue.on_disk "s" = true := by
  exact ⟨by decide, by decide, by decide, rfl⟩

/-- C5 (amended): within a single `run` invocation over a rule set with an
acyclicity certificate (a rank decreasing along dependency edges), pairwise
disjoint and duplicate-free `resolved_outputs`, every target OWNED by a rule
is cooked at most once; an unowned on-disk input, however, is re-cooked by
every rule that lists it (the per-invocation target cache stores it but never
prevents re-cooking), as the counterexample shows. -/
theorem c5_owned_targets_cooked_at_most_once (rules : List ResolvedRule) (env : EngineEnv)
    (config : ConfigMap) (db : Db) (fuel : Nat) (target : TargetId)
    (rank : ResolvedRule → Nat)
    (hrank : ∀ r ∈ rules, ∀ t ∈ r.resolved_inputs, ∀ r',
      target_to_rule rules t = some r' → rank r' < rank r)
    (hsep : ∀ r1 ∈ rules, ∀ r2 ∈ rules, r1 ≠ r2 → ∀ t, t ∈ r1.resolved_outputs →
      t ∉ r2.resolved_outputs)
    (hnod : ∀ r ∈ rules, r.resolved_outputs.Nodup)
    (st' : RunState) (res : RunResult Bool)
    (h : runner_run rules env config db fuel target = (st', res)) :
    ∀ r t, r ∈ rules → t ∈ r.resolved_outputs →
      List.count (Event.cook t) st'.trace ≤ 1 := by
  unfold runner_run at h
  cases htr : target_to_rule rules target with
  | none =>
    rw [htr] at h
    cases h
    intro r t hr ht
    show List.count (Event.cook t) ([] : List Event) ≤ 1
    simp
  | some r0 =>
    rw [htr] at h
    have hInv : CookInv rules st' := by
      cases fuel with
      | zero =>
        cases h
        intro r t hr ht
        exact ⟨by simp [initState], fun _ => by simp [initState]⟩
      | succ fuel =>
        refine run_rule_go_cook rules env config rank hrank hsep hnod (fuel+1) r0 _ _ _ 
          (target_to_rule_mem htr).1 h ?_
        intro r t hr ht
        exact ⟨by simp [initState], fun _ => by simp [initState]⟩
    intro r t hr ht
    exact (hInv r t hr ht).1

/-- Witness for the amended C5 at the concrete diamond rule set. -/
theorem c5_owned_targets_cooked_at_most_once_witness :
    List.count (Event.cook "a") (runner_run c5Rules envTrue cfgEmpty [] 9 "b").1.trace ≤ 1 := by
  refine c5_owned_targets_cooked_at_most_once c5Rules envTrue cfgEmpty [] 9 "b"
    (fun r => if r.id = "B" then 1 else 0) ?_ (by decide) (by decide) _ _ rfl
    c5RuleA "a" (by decide) (by decide)
  intro r hr t ht r' htr
  fin_cases hr
  · fin_cases ht
    exact Option.noConfusion ((show target_to_rule c5Rules "s" = none by decide) ▸ htr)
  · fin_cases ht
    · exact Option.noConfusion ((show target_to_rule c5Rules "s" = none by decide) ▸ htr)
    · rw [show target_to_rule c5Rules "a" = some c5RuleA from by decide] at htr
      cases htr
      decide

/-! Claim C6: commit discipline. -/

theorem lookupA_cons_isSome {α β : Type} [DecidableEq α] (k k' : α) (v : β)
    (l : List (α × β)) (h : (lookupA k l).isSome) :
    (lookupA k ((k', v) :: l)).isSome := by
  rw [lookupA_cons]
  split
  · rfl
  · exact h

theorem lookupA_cons_ne_none {α β : Type} [DecidableEq α] (k k' : α) (v : β)
    (l : List (α × β)) (h : lookupA k l ≠ none) :
    lookupA k ((k', v) :: l) ≠ none := by
  rw [lookupA_cons]
  split
  · simp
  · exact h

theorem rule_id_unique {rules : List ResolvedRule} (hids : (rules.map (·.id)).Nodup)
    {r1 r2 : ResolvedRule} (h1 : r1 ∈ rules) (h2 : r2 ∈ rules) (hid : r1.id = r2.id) :
    r1 = r2 :=
  List.inj_on_of_nodup_map hids h1 h2 hid

theorem commits_follow_runs_non_commit (e : Event) (tr : List Event)
    (he : ∀ i, e ≠ Event.commit i) :
    commits_follow_runs (e :: tr) = commits_follow_runs tr := by
  cases e with
  | cook t => rfl
  | runBody i => rfl
  | cleanTarget t => rfl
  | commit i => exact absurd rfl (he i)

theorem commits_follow_runs_prefix :
    ∀ (l : List Event), (∀ e ∈ l, ∀ i, e ≠ Event.commit i) →
      ∀ tr, commits_follow_runs (l ++ tr) = commits_follow_runs tr := by
  intro l
  induction l with
  | nil => intro _ tr; rfl
  | cons e rest ih =>
    intro hl tr
    rw [List.cons_append,
      commits_follow_runs_non_commit e _ (hl e (List.mem_cons_self e rest)),
      ih (fun e' he' => hl e' (List.mem_cons_of_mem e he')) tr]

theorem count_commit_non_commit (i : String) (e : Event) (tr : List Event)
    (he : ∀ j, e ≠ Event.commit j) :
    List.count (Event.commit i) (e :: tr) = List.count (Event.commit i) tr := by
  rw [List.count_cons]
  have : ¬ e = Event.commit i := he i
  simp [this]

theorem count_commit_prefix (i : String) :
    ∀ (l : List Event), (∀ e ∈ l, ∀ j, e ≠ Event.commit j) →
      ∀ tr, List.count (Event.commit i) (l ++ tr) = List.count (Event.commit i) tr := by
  intro l
  induction l with
  | nil => intro _ tr; rfl
  | cons e rest ih =>
    intro hl tr
    rw [List.cons_append,
      count_commit_non_commit i e _ (hl e (List.mem_cons_self e rest)),
      ih (fun e' he' => hl e' (List.mem_cons_of_mem e he')) tr]

theorem mem_commit_extend {i : String} {l tr : List Event}
    (hl : ∀ e ∈ l, ∀ j, e ≠ Event.commit j)
    (h : Event.commit i ∈ l ++ tr) : Event.commit i ∈ tr := by
  rcases List.mem_append.mp h with h' | h'
  · exact absurd rfl (hl _ h' i)
  · exact h'

theorem cooks_not_commit (outs : List TargetId) :
    ∀ e ∈ (outs.map Event.cook).reverse, ∀ j, e ≠ Event.commit j := by
  intro e he j
  rw [List.mem_reverse] at he
  obtain ⟨t, _, rfl⟩ := List.mem_map.mp he
  exact fun h => Event.noConfusion h

theorem CommitInv_extend (rules : List ResolvedRule) (env : EngineEnv) (config : ConfigMap)
    (st st' : RunState) (l : List Event)
    (hl : ∀ e ∈ l, ∀ j, e ≠ Event.commit j)
    (htr : st'.trace = l ++ st.trace)
    (hae : ∀ r', lookupA r' st.already_evaluated ≠ none →
      lookupA r' st'.already_evaluated ≠ none)
    (hdb : ∀ k, (lookupA k st.db).isSome → (lookupA k st'.db).isSome) :
    CommitInv rules env config st → CommitInv rules env config st' := by
  intro ⟨i1, i2, i3, i4⟩
  refine ⟨?_, ?_, ?_, ?_⟩
  · intro i
    rw [htr, count_commit_prefix i l hl]
    exact i1 i
  · rw [htr, commits_follow_runs_prefix l hl]
    exact i2
  · intro i hi
    rw [htr] at hi
    exact i3 i (mem_commit_extend hl hi)
  · intro i hi
    rw [htr] at hi
    obtain ⟨r', hm, hid, hdbS, haeS⟩ := i4 i (mem_commit_extend hl hi)
    exact ⟨r', hm, hid, hdb _ hdbS, hae r' haeS⟩

theorem run_inputs_commit (rules : List ResolvedRule) (env : EngineEnv) (config : ConfigMap)
    (recur : ResolvedRule → RunState → RunState × RunResult Bool)
    (r : ResolvedRule) (prev : PrevRecord)
    (hrec : ∀ r' st st' res, r' ∈ rules → recur r' st = (st', res) →
      CommitInv rules env config st →
      CommitInv rules env config st'
      ∧ (∀ i, res = .err (.runError i) →
          env.run_ok i = false ∧ Event.runBody i ∈ st'.trace ∧ Event.commit i ∉ st'.trace)) :
    ∀ inputs rb tc st st' res, run_inputs rules env recur r prev inputs rb tc st = (st', res) →
      CommitInv rules env config st →
      CommitInv rules env config st'
      ∧ (∀ i, res = .err (.runError i) →
          env.run_ok i = false ∧ Event.runBody i ∈ st'.trace ∧ Event.commit i ∉ st'.trace) := by
  intro inputs
  induction inputs with
  | nil =>
    intro rb tc st st' res h hInv
    rw [run_inputs] at h
    cases h
    exact ⟨hInv, fun i hi => nomatch hi⟩
  | cons t rest ih =>
    intro rb tc st st' res h hInv
    rw [run_inputs] at h
    split at h
    next htr =>
      have hstep : ∀ (stx : RunState), stx.trace = Event.cook t :: st.trace →
          stx.already_evaluated = st.already_evaluated → stx.db = st.db →
          CommitInv rules env config stx := by
        intro stx h1 h2 h3
        refine CommitInv_extend rules env config st stx [Event.cook t]
          (by intro e he j; simp at he; subst he; exact fun hh => Event.noConfusion hh)
          (by rw [h1]; rfl) (by rw [h2]; exact fun r' hr' => hr') 
          (by rw [h3]; exact fun k hk => hk) hInv
      split at h
      next hdk =>
        exact ih _ _ _ _ _ h (hstep _ rfl rfl rfl)
      next hdk =>
        cases h
        exact ⟨hstep _ rfl rfl rfl, fun i hi => by simp at hi⟩
    next sub htr =>
      have hsubmem : sub ∈ rules := (target_to_rule_mem htr).1
      cases hrc : recur sub st with
      | mk st2 res2 =>
        rw [hrc] at h
        cases res2 with
        | ok b =>
          dsimp only at h
          exact ih _ _ _ _ _ h (hrec sub st st2 (.ok b) hsubmem hrc hInv).1
        | err e =>
          dsimp only at h
          cases h
          obtain ⟨hcv, herr⟩ := hrec sub st _ (.err e) hsubmem hrc hInv
          refine ⟨hcv, fun i hi => herr i ?_⟩
          injection hi with h2
          rw [h2]
        | div =>
          dsimp only at h
          cases h
          exact ⟨(hrec sub st _ .div hsubmem hrc hInv).1, fun i hi => nomatch hi⟩

theorem run_rule_go_commit (rules : List ResolvedRule) (env : EngineEnv) (config : ConfigMap)
    (hids : (rules.map (·.id)).Nodup) (rank : ResolvedRule → Nat)
    (hrank : ∀ r ∈ rules, ∀ t ∈ r.resolved_inputs, ∀ r',
      target_to_rule rules t = some r' → rank r' < rank r) :
    ∀ fuel r st st' res, r ∈ rules → run_rule_go rules env config fuel r st = (st', res) →
      CommitInv rules env config st →
      CommitInv rules env config st'
      ∧ (∀ i, res = .err (.runError i) →
          env.run_ok i = false ∧ Event.runBody i ∈ st'.trace ∧ Event.commit i ∉ st'.trace) := by
  intro fuel
  induction fuel with
  | zero =>
    intro r st st' res hr h hInv
    cases h
    exact ⟨hInv, fun i hi => nomatch hi⟩
  | succ fuel ih =>
    intro r st st' res hr h hInv
    rcases run_rule_go_succ_cases rules env config fuel r st st' res h with
      ⟨b, hae, rfl, rfl⟩ | ⟨hae, st1, ⟨e, hri, rfl, rfl⟩ | ⟨hri, rfl, rfl⟩ |
        ⟨rb1, tc1, rb, tc, st2, hri, hro, hcase⟩⟩
    · exact ⟨hInv, fun i hi => nomatch hi⟩
    · obtain ⟨hcv, herr⟩ := run_inputs_commit rules env config _ r _
        (fun r' a b' c hm heq => ih r' a b' c hm heq) _ _ _ _ _ _ hri hInv
      refine ⟨hcv, fun i hi => herr i ?_⟩
      injection hi with h2
      rw [h2]
    · exact ⟨(run_inputs_commit rules env config _ r _
        (fun r' a b' c hm heq => ih r' a b' c hm heq) _ _ _ _ _ _ hri hInv).1,
        fun i hi => nomatch hi⟩
    · have hInv1 : CommitInv rules env config st1 := (run_inputs_commit rules env config _ r _
        (fun r' a b' c hm heq => ih r' a b' c hm heq) _ _ _ _ _ _ hri hInv).1
      have hrnot : lookupA r st1.already_evaluated = none := by
        by_contra hcon
        exact lt_irrefl _ (run_inputs_rank rules env _ rank r
          (fun r' a b' c hm heq => run_rule_go_rank rules env config rank hrank fuel r' a b' c hm heq)
          (hrank r hr) _ r.resolved_inputs (fun u hu => hu) _ _ _ _ _ hri r hae hcon)
      obtain ⟨ho_ae, ho_db, ho_tr, ho_tc⟩ := run_outputs_state env _ _ _ _ _ _ _ _ hro
      have hnocommitr : Event.commit r.id ∉ st1.trace := by
        intro hc
        obtain ⟨r', hm, hid, _, haeS⟩ := hInv1.2.2.2 r.id hc
        exact haeS (rule_id_unique hids hm hr hid ▸ hrnot)
      have hInv2 : CommitInv rules env config st2 := by
        refine CommitInv_extend rules env config st1 st2 _ (cooks_not_commit r.resolved_outputs)
          ho_tr (by rw [ho_ae]; exact fun r' hr' => hr') (by rw [ho_db]; exact fun k hk => hk) hInv1
      have hnocommitr2 : Event.commit r.id ∉ st2.trace := by
        rw [ho_tr]
        exact fun hc => hnocommitr (mem_commit_extend (cooks_not_commit r.resolved_outputs) hc)
      rcases hcase with ⟨hrb, hst, hres⟩ | ⟨hrb, hok, hst, hres⟩ |
        ⟨hrb, hok, fps, st3, hct, hst, hres⟩
      · subst hst hres
        refine ⟨CommitInv_extend rules env config st2 _ [] (by intro e he; simp at he)
          (by simp) ?_ (fun k hk => hk) hInv2, fun i hi => nomatch hi⟩
        intro r' hr'
        exact lookupA_cons_ne_none r' r false st2.already_evaluated hr'
      · subst hst hres
        constructor
        · refine CommitInv_extend rules env config st2 _ [Event.runBody r.id]
            (by intro e he j; simp at he; subst he; exact fun hh => Event.noConfusion hh)
            (by simp [addEvent]) ?_ (fun k hk => hk) hInv2
          intro r' hr'
          exact lookupA_cons_ne_none r' r true st2.already_evaluated hr'
        · intro i hi
          have hieq : i = r.id := by
            injection hi with h2
            injection h2 with h3
            exact h3.symm
          subst hieq
          refine ⟨hok, by simp [addEvent], ?_⟩
          intro hc
          rw [show (addEvent (Event.runBody r.id)
            { st2 with already_evaluated := (r, true) :: st2.already_evaluated }).trace
            = Event.runBody r.id :: st2.trace from rfl] at hc
          rcases List.mem_cons.mp hc with h' | h'
          · exact Event.noConfusion h'
          · exact hnocommitr2 h'
      · subst hst hres
        obtain ⟨hc_ae, hc_db, hc_tr⟩ := commit_targets_state env _ _ _ _ hct
        have hst3ae : st3.already_evaluated = (r, true) :: st2.already_evaluated := by
          rw [hc_ae]; rfl
        have hst3tr : st3.trace = Event.runBody r.id :: st2.trace := by
          rw [hc_tr]; rfl
        have hst3db : st3.db = st2.db := by
          rw [hc_db]; rfl
        have hftr : (addEvent (Event.commit r.id)
            { st3 with db := (compute_run_fingerprint config r, fps) :: st3.db }).trace
            = Event.commit r.id :: Event.runBody r.id :: st2.trace := by
          simp [addEvent, hst3tr]
        obtain ⟨i1, i2, i3, i4⟩ := hInv2
        constructor
        constructor
        · -- counts
          intro i
          rw [hftr]
          by_cases hir : i = r.id
          · subst hir
            rw [List.count_cons, List.count_cons]
            have hz : List.count (Event.commit r.id) st2.trace = 0 :=
              List.count_eq_zero.mpr hnocommitr2
            simp [hz]
          · rw [List.count_cons, List.count_cons]
            have hne1 : ¬ Event.commit r.id = Event.commit i :=
              fun hh => hir (by injection hh with h2; exact h2.symm)
            have hne2 : ¬ Event.runBody r.id = Event.commit i :=
              fun hh => Event.noConfusion hh
            simp [hne1, hne2]
            exact i1 i
        constructor
        · rw [hftr]
          show (decide (r.id = r.id) && commits_follow_runs (Event.runBody r.id :: st2.trace)) = true
          rw [commits_follow_runs_non_commit _ _ (fun j hj => Event.noConfusion hj)]
          simp [i2]
        constructor
        · intro i hi
          rw [hftr] at hi
          rcases List.mem_cons.mp hi with h' | h'
          · injection h' with h2
            exact h2 ▸ hok
          · rcases List.mem_cons.mp h' with h'' | h''
            · exact Event.noConfusion h''
            · exact i3 i h''
        · intro i hi
          rw [hftr] at hi
          rcases List.mem_cons.mp hi with h' | h'
          · injection h' with h2
            subst h2
            refine ⟨r, hr, rfl, ?_, ?_⟩
            · show (lookupA (compute_run_fingerprint config r)
                ((compute_run_fingerprint config r, fps) :: st3.db)).isSome
              rw [lookupA_cons, if_pos rfl]
              rfl
            · show lookupA r ((addEvent (Event.commit r.id)
                { st3 with db := (compute_run_fingerprint config r, fps) :: st3.db }).already_evaluated) ≠ none
              show lookupA r st3.already_evaluated ≠ none
              rw [hst3ae, lookupA_cons, if_pos rfl]
              simp
          · rcases List.mem_cons.mp h' with h'' | h''
            · exact Event.noConfusion h''
            · obtain ⟨r', hm, hid, hdbS, haeS⟩ := i4 i h''
              refine ⟨r', hm, hid, ?_, ?_⟩
              · show (lookupA (compute_run_fingerprint config r')
                  ((compute_run_fingerprint config r, fps) :: st3.db)).isSome
                exact lookupA_cons_isSome _ _ _ _ (hst3db ▸ hdbS)
              · show lookupA r' st3.already_evaluated ≠ none
                rw [hst3ae]
                exact lookupA_cons_ne_none r' r true st2.already_evaluated haeS
        · exact fun i hi => nomatch hi

/-- C6: commit discipline of the run traversal, on a rule set with unique
rule ids and an acyclicity certificate (the spec's validity assumptions; a
cyclic path never returns, see C1): every rule is committed at most once per
invocation; every commit event directly follows the successful return of that
rule's body (`run_ok`); if a rule's body raises, the invocation aborts with
`RunError` carrying exactly that rule's id, that rule is never committed, and
every commit already made keeps its record in the store at the end. -/
theorem c6_commit_discipline (rules : List ResolvedRule) (env : EngineEnv)
    (config : ConfigMap) (db : Db) (fuel : Nat) (target : TargetId)
    (hids : (rules.map (·.id)).Nodup)
    (rank : ResolvedRule → Nat)
    (hrank : ∀ r ∈ rules, ∀ t ∈ r.resolved_inputs, ∀ r',
      target_to_rule rules t = some r' → rank r' < rank r)
    (st' : RunState) (res : RunResult Bool)
    (h : runner_run rules env config db fuel target = (st', res)) :
    (∀ i, List.count (Event.commit i) st'.trace ≤ 1)
    ∧ commits_follow_runs st'.trace = true
    ∧ (∀ i, Event.commit i ∈ st'.trace → env.run_ok i = true)
    ∧ (∀ i, Event.commit i ∈ st'.trace →
        ∃ r', r' ∈ rules ∧ r'.id = i
          ∧ (lookupA (compute_run_fingerprint config r') st'.db).isSome)
    ∧ (∀ i, res = .err (.runError i) →
        env.run_ok i = false ∧ Event.runBody i ∈ st'.trace ∧ Event.commit i ∉ st'.trace) := by
  unfold runner_run at h
  cases htr : target_to_rule rules target with
  | none =>
    rw [htr] at h
    cases h
    refine ⟨fun i => by simp [initState], rfl, fun i hi => absurd hi (List.not_mem_nil _),
      fun i hi => absurd hi (List.not_mem_nil _), fun i hi => ?_⟩
    injection hi with h2
    exact EngineError.noConfusion h2
  | some r0 =>
    rw [htr] at h
    have hInit : CommitInv rules env config (initState db) := by
      refine ⟨fun i => by simp [initState], rfl, fun i hi => absurd hi (List.not_mem_nil _),
        fun i hi => absurd hi (List.not_mem_nil _)⟩
    obtain ⟨⟨j1, j2, j3, j4⟩, j5⟩ := run_rule_go_commit rules env config hids rank hrank
      fuel r0 _ _ _ (target_to_rule_mem htr).1 h hInit
    exact ⟨j1, j2, j3, fun i hi => (j4 i hi).imp
      (fun r' hp => ⟨hp.1, hp.2.1, hp.2.2.1⟩), j5⟩

/-- Witness for C6 on the concrete two-rule chain where `B`'s body fails:
`A`'s single commit remains and the invocation ends in `RunError B`. -/
theorem c6_commit_discipline_witness :
    List.count (Event.commit "A") (runner_run c5Rules c6Env cfgEmpty [] 9 "b").1.trace ≤ 1 := by
  refine (c6_commit_discipline c5Rules c6Env cfgEmpty [] 9 "b" (by decide)
    (fun r => if r.id = "B" then 1 else 0) ?_ _ _ rfl).1 "A"
  intro r hr t ht r' htr
  fin_cases hr
  · fin_cases ht
    exact Option.noConfusion ((show target_to_rule c5Rules "s" = none by decide) ▸ htr)
  · fin_cases ht
    · exact Option.noConfusion ((show target_to_rule c5Rules "s" = none by decide) ▸ htr)
    · rw [show target_to_rule c5Rules "a" = some c5RuleA from by decide] at htr
      cases htr
      decide

/-! Claim C8: configuration keys outside every `needed_config` are
irrelevant. -/

theorem compute_run_fingerprint_congr (r : ResolvedRule) (c1 c2 : ConfigMap)
    (h : ∀ k ∈ r.needed_config, c1 k = c2 k) :
    compute_run_fingerprint c1 r = compute_run_fingerprint c2 r := by
  unfold compute_run_fingerprint
  rw [List.map_congr_left (fun k hk => h k (mem_sorted_needed.mp hk))]

theorem run_inputs_congr (rules : List ResolvedRule) (env : EngineEnv)
    (recur1 recur2 : ResolvedRule → RunState → RunState × RunResult Bool)
    (r : ResolvedRule) (prev : PrevRecord)
    (hrec : ∀ r' ∈ rules, ∀ st, recur1 r' st = recur2 r' st) :
    ∀ inputs rb tc st, run_inputs rules env recur1 r prev inputs rb tc st
      = run_inputs rules env recur2 r prev inputs rb tc st := by
  intro inputs
  induction inputs with
  | nil => intro rb tc st; rfl
  | cons t rest ih =>
    intro rb tc st
    rw [run_inputs, run_inputs]
    cases htr : target_to_rule rules t with
    | none =>
      dsimp only
      split
      · exact ih _ _ _
      · rfl
    | some sub =>
      dsimp only
      rw [hrec sub (target_to_rule_mem htr).1 st]
      cases recur2 sub st with
      | mk st2 res2 =>
        cases res2 with
        | ok b => exact ih _ _ _
        | err e => rfl
        | div => rfl

theorem run_rule_go_config (rules : List ResolvedRule) (env : EngineEnv)
    (c1 c2 : ConfigMap)
    (hkey : ∀ r ∈ rules, compute_run_fingerprint c1 r = compute_run_fingerprint c2 r) :
    ∀ fuel r st, r ∈ rules →
      run_rule_go rules env c1 fuel r st = run_rule_go rules env c2 fuel r st := by
  intro fuel
  induction fuel with
  | zero => intro r st hr; rfl
  | succ fuel ih =>
    intro r st hr
    rw [run_rule_go, run_rule_go]
    cases hae : lookupA r st.already_evaluated with
    | some b => rfl
    | none =>
      dsimp only
      rw [hkey r hr,
        run_inputs_congr rules env
          (fun r' s' => run_rule_go rules env c1 fuel r' s')
          (fun r' s' => run_rule_go rules env c2 fuel r' s') r _
          (fun r' hm st' => ih r' st' hm)]

/-- C8: two configurations that agree on every key in the `needed_config` of
every rule give every rule the identical run fingerprint, and the whole `run`
invocation (outcome, trace, caches, committed store) is identical under the
two configurations; hence changing a configuration key not listed in any
rule's `needed_config` causes no rebuild (same store contents and target
state). -/
theorem c8_unneeded_config_keys_are_irrelevant (rules : List ResolvedRule) (env : EngineEnv)
    (db : Db) (fuel : Nat) (target : TargetId) (c1 c2 : ConfigMap)
    (hagree : ∀ r ∈ rules, ∀ k ∈ r.needed_config, c1 k = c2 k) :
    (∀ r ∈ rules, compute_run_fingerprint c1 r = compute_run_fingerprint c2 r)
    ∧ runner_run rules env c1 db fuel target = runner_run rules env c2 db fuel target := by
  have hkey : ∀ r ∈ rules, compute_run_fingerprint c1 r = compute_run_fingerprint c2 r :=
    fun r hr => compute_run_fingerprint_congr r c1 c2 (hagree r hr)
  refine ⟨hkey, ?_⟩
  unfold runner_run
  cases htr : target_to_rule rules target with
  | none => rfl
  | some r0 => exact run_rule_go_config rules env c1 c2 hkey fuel r0 _ (target_to_rule_mem htr).1

/-- Witness for C8: changing every configuration value (no key is needed by
any rule of the cycle set) leaves the whole run identical. -/
theorem c8_unneeded_config_keys_are_irrelevant_witness :
    runner_run cycleRules envTrue cfgEmpty [] 3 "a_out"
      = runner_run cycleRules envTrue (fun _ => "zz") [] 3 "a_out" :=
  (c8_unneeded_config_keys_are_irrelevant cycleRules envTrue [] 3 "a_out" cfgEmpty
    (fun _ => "zz")
    (by intro r hr k hk; fin_cases hr <;> exact absurd hk (List.not_mem_nil k))).2

/-! Claim C7: an immediately repeated run is a no-op. -/

theorem run_inputs_ae_mono (rules : List ResolvedRule) (env : EngineEnv)
    (recur : ResolvedRule → RunState → RunState × RunResult Bool)
    (r : ResolvedRule) (prev : PrevRecord)
    (hrec : ∀ r' st st' res, recur r' st = (st', res) →
      ∀ r'', lookupA r'' st.already_evaluated ≠ none →
        lookupA r'' st'.already_evaluated ≠ none) :
    ∀ inputs rb tc st st' res, run_inputs rules env recur r prev inputs rb tc st = (st', res) →
      ∀ r'', lookupA r'' st.already_evaluated ≠ none →
        lookupA r'' st'.already_evaluated ≠ none := by
  intro inputs
  induction inputs with
  | nil =>
    intro rb tc st st' res h r'' h''
    rw [run_inputs] at h
    cases h
    exact h''
  | cons t rest ih =>
    intro rb tc st st' res h r'' h''
    rw [run_inputs] at h
    split at h
    next htr =>
      split at h
      next hdk => exact ih _ _ _ _ _ h r'' h''
      next hdk =>
        cases h
        exact h''
    next sub htr =>
      cases hrc : recur sub st with
      | mk st2 res2 =>
        rw [hrc] at h
        cases res2 with
        | ok b =>
          dsimp only at h
          exact ih _ _ _ _ _ h r'' (hrec sub st st2 (.ok b) hrc r'' h'')
        | err e =>
          dsimp only at h
          cases h
          exact hrec sub st _ (.err e) hrc r'' h''
        | div =>
          dsimp only at h
          cases h
          exact hrec sub st _ .div hrc r'' h''

theorem run_rule_go_ae_mono (rules : List ResolvedRule) (env : EngineEnv)
    (config : ConfigMap) :
    ∀ fuel r st st' res, run_rule_go rules env config fuel r st = (st', res) →
      ∀ r'', lookupA r'' st.already_evaluated ≠ none →
        lookupA r'' st'.already_evaluated ≠ none := by
  intro fuel
  induction fuel with
  | zero =>
    intro r st st' res h r'' h''
    cases h
    exact h''
  | succ fuel ih =>
    intro r st st' res h r'' h''
    rcases run_rule_go_succ_cases rules env config fuel r st st' res h with
      ⟨b, hae, rfl, rfl⟩ | ⟨hae, st1, ⟨e, hri, rfl, rfl⟩ | ⟨hri, rfl, rfl⟩ |
        ⟨rb1, tc1, rb, tc, st2, hri, hro, hcase⟩⟩
    · exact h''
    · exact run_inputs_ae_mono rules env _ r _ (fun r' a b' c heq => ih r' a b' c heq)
        _ _ _ _ _ _ hri r'' h''
    · exact run_inputs_ae_mono rules env _ r _ (fun r' a b' c heq => ih r' a b' c heq)
        _ _ _ _ _ _ hri r'' h''
    · have h1 : lookupA r'' st1.already_evaluated ≠ none :=
        run_inputs_ae_mono rules env _ r _ (fun r' a b' c heq => ih r' a b' c heq)
          _ _ _ _ _ _ hri r'' h''
      obtain ⟨ho_ae, _, _, _⟩ := run_outputs_state env _ _ _ _ _ _ _ _ hro
      have h2 : lookupA r'' st2.already_evaluated ≠ none := by rw [ho_ae]; exact h1
      rcases hcase with ⟨hrb, hst, hres⟩ | ⟨hrb, hok, hst, hres⟩ |
        ⟨hrb, hok, fps, st3, hct, hst, hres⟩
      · subst hst
        exact lookupA_cons_ne_none r'' r false st2.already_evaluated h2
      · subst hst
        exact lookupA_cons_ne_none r'' r true st2.already_evaluated h2
      · subst hst
        obtain ⟨hc_ae, _, _⟩ := commit_targets_state env _ _ _ _ hct
        show lookupA r'' st3.already_evaluated ≠ none
        rw [hc_ae]
        exact lookupA_cons_ne_none r'' r true st2.already_evaluated h2

theorem run_rule_go_ok_ae (rules : List ResolvedRule) (env : EngineEnv) (config : ConfigMap)
    (fuel : Nat) (r : ResolvedRule) (st st' : RunState) (b : Bool)
    (h : run_rule_go rules env config fuel r st = (st', .ok b)) :
    lookupA r st'.already_evaluated ≠ none := by
  cases fuel with
  | zero => cases h
  | succ fuel =>
    rcases run_rule_go_succ_cases rules env config fuel r st st' _ h with
      ⟨b', hae, rfl, heq⟩ | ⟨hae, st1, ⟨e, hri, rfl, heq⟩ | ⟨hri, rfl, heq⟩ |
        ⟨rb1, tc1, rb, tc, st2, hri, hro, hcase⟩⟩
    · rw [hae]; simp
    · exact RunResult.noConfusion heq
    · exact RunResult.noConfusion heq
    · rcases hcase with ⟨hrb, hst, hres⟩ | ⟨hrb, hok, hst, hres⟩ |
        ⟨hrb, hok, fps, st3, hct, hst, hres⟩
      · subst hst
        show lookupA r ((r, false) :: st2.already_evaluated) ≠ none
        rw [lookupA_cons, if_pos rfl]
        simp
      · exact RunResult.noConfusion hres
      · subst hst
        obtain ⟨hc_ae, _, _⟩ := commit_targets_state env _ _ _ _ hct
        show lookupA r st3.already_evaluated ≠ none
        rw [hc_ae]
        show lookupA r ((r, true) :: st2.already_evaluated) ≠ none
        rw [lookupA_cons, if_pos rfl]
        simp

theorem run_inputs_tc (rules : List ResolvedRule) (env : EngineEnv)
    (recur : ResolvedRule → RunState → RunState × RunResult Bool)
    (r : ResolvedRule) (prev : PrevRecord) :
    ∀ inputs rb tc st st' rb' tc',
      run_inputs rules env recur r prev inputs rb tc st = (st', .ok (rb', tc')) →
      tc' = tc ++ inputs.filter (fun t => (target_to_rule rules t).isNone) := by
  intro inputs
  induction inputs with
  | nil =>
    intro rb tc st st' rb' tc' h
    rw [run_inputs] at h
    cases h
    simp
  | cons t rest ih =>
    intro rb tc st st' rb' tc' h
    rw [run_inputs] at h
    split at h
    next htr =>
      split at h
      next hdk =>
        rw [ih _ _ _ _ _ _ h]
        simp [List.filter_cons, htr]
      next hdk => cases h
    next sub htr =>
      cases hrc : recur sub st with
      | mk st2 res2 =>
        rw [hrc] at h
        cases res2 with
        | ok b =>
          dsimp only at h
          rw [ih _ _ _ _ _ _ h]
          simp [List.filter_cons, htr]
        | err e => cases h
        | div => cases h

theorem run_inputs_false (rules : List ResolvedRule) (env : EngineEnv)
    (recur : ResolvedRule → RunState → RunState × RunResult Bool)
    (r : ResolvedRule) (prev : PrevRecord) :
    ∀ inputs rb tc st st' tc',
      run_inputs rules env recur r prev inputs rb tc st = (st', .ok (false, tc')) →
      rb = false ∧ ∀ t ∈ inputs, (target_to_rule rules t).isNone →
        ∃ fp, lookupA t prev = some fp ∧ env.need_rebuild t (some fp) fp = false := by
  intro inputs
  induction inputs with
  | nil =>
    intro rb tc st st' tc' h
    rw [run_inputs] at h
    cases h
    exact ⟨rfl, fun t ht => absurd ht (List.not_mem_nil t)⟩
  | cons t rest ih =>
    intro rb tc st st' tc' h
    rw [run_inputs] at h
    split at h
    next htr =>
      split at h
      next hdk =>
        obtain ⟨hor, hrest⟩ := ih _ _ _ _ _ h
        rcases Bool.or_eq_false_iff.mp hor with ⟨h1, h2⟩
        refine ⟨h1, ?_⟩
        intro u hu _hun
        rcases List.mem_cons.mp hu with h' | h'
        · subst h'
          cases hfp : lookupA u prev with
          | none => rw [hfp] at h2; exact absurd h2 (by simp)
          | some fp =>
            rw [hfp] at h2
            exact ⟨fp, rfl, h2⟩
        · exact hrest u h' (by
            rcases List.mem_cons.mp hu with h'' | h''
            · exact _hun
            · exact _hun)
      next hdk => cases h
    next sub htr =>
      cases hrc : recur sub st with
      | mk st2 res2 =>
        rw [hrc] at h
        cases res2 with
        | ok b =>
          dsimp only at h
          obtain ⟨hor, hrest⟩ := ih _ _ _ _ _ h
          rcases Bool.or_eq_false_iff.mp hor with ⟨h1, h2⟩
          refine ⟨h1, ?_⟩
          intro u hu hun
          rcases List.mem_cons.mp hu with h' | h'
          · subst h'
            rw [htr] at hun
            exact absurd hun (by simp)
          · exact hrest u h' hun
        | err e => cases h
        | div => cases h

theorem run_outputs_false (env : EngineEnv) (prev : PrevRecord) :
    ∀ outs rb tc st tc' st',
      run_outputs env prev outs rb tc st = (false, tc', st') →
      rb = false ∧ ∀ t ∈ outs,
        ∃ fp, lookupA t prev = some fp ∧ env.need_rebuild t (some fp) fp = false := by
  intro outs
  induction outs with
  | nil =>
    intro rb tc st tc' st' h
    rw [run_outputs] at h
    cases h
    exact ⟨rfl, fun t ht => absurd ht (List.not_mem_nil t)⟩
  | cons t rest ih =>
    intro rb tc st tc' st' h
    rw [run_outputs] at h
    obtain ⟨hor, hrest⟩ := ih _ _ _ _ _ h
    rcases Bool.or_eq_false_iff.mp hor with ⟨h1, h2⟩
    refine ⟨h1, ?_⟩
    intro u hu
    rcases List.mem_cons.mp hu with h' | h'
    · subst h'
      cases hfp : lookupA u prev with
      | none => rw [hfp] at h2; exact absurd h2 (by simp)
      | some fp =>
        rw [hfp] at h2
        exact ⟨fp, rfl, h2⟩
    · exact hrest u h'

theorem run_outputs_good (env : EngineEnv) (m : PrevRecord) :
    ∀ outs rb tc st,
      (∀ t ∈ outs, ∃ fp, lookupA t m = some fp ∧ env.need_rebuild t (some fp) fp = false) →
      ∃ tc' st', run_outputs env m outs rb tc st = (rb, tc', st')
        ∧ st'.already_evaluated = st.already_evaluated
        ∧ st'.db = st.db
        ∧ st'.trace = (outs.map Event.cook).reverse ++ st.trace := by
  intro outs
  induction outs with
  | nil =>
    intro rb tc st _
    exact ⟨tc, st, rfl, rfl, rfl, by simp⟩
  | cons t rest ih =>
    intro rb tc st hgood
    obtain ⟨fp, hfp, hnr⟩ := hgood t (List.mem_cons_self t rest)
    obtain ⟨tc', st', heq, h1, h2, h3⟩ := ih (rb || false) (tc ++ [t])
      { addEvent (Event.cook t) st with targets_eval_cache :=
          (t, (some fp, false)) :: (addEvent (Event.cook t) st).targets_eval_cache }
      (fun u hu => hgood u (List.mem_cons_of_mem t hu))
    rw [Bool.or_false] at heq
    refine ⟨tc', st', ?_, h1, h2, ?_⟩
    · rw [run_outputs, hfp]
      dsimp only
      rw [hnr, Bool.or_false]
      exact heq
    · rw [h3]
      simp [addEvent]

theorem commit_targets_covers (env : EngineEnv)
    (hsome : ∀ t h', (env.compute_fingerprint t h').isSome) :
    ∀ tcs st fps st', commit_targets env tcs st = (fps, st') →
      ∀ t ∈ tcs, ∃ hint fp, env.compute_fingerprint t hint = some fp
        ∧ lookupA t fps = some fp := by
  intro tcs
  induction tcs with
  | nil =>
    intro st fps st' h t ht
    exact absurd ht (List.not_mem_nil t)
  | cons t rest ih =>
    intro st fps st' h u hu
    rw [commit_targets] at h
    dsimp only at h
    cases hrec : commit_targets env rest
        { st with targets_eval_cache :=
            (t, (((lookupA t st.targets_eval_cache).getD (none, false)).1, true))
              :: st.targets_eval_cache } with
    | mk fps2 st2 =>
      rw [hrec] at h
      dsimp only at h
      cases hfp : env.compute_fingerprint t ((lookupA t st.targets_eval_cache).getD (none, false)).1 with
      | none => exact absurd (hfp ▸ hsome t _) (by simp)
      | some fp =>
        rw [hfp] at h
        cases h
        by_cases hut : t = u
        · subst hut
          exact ⟨_, fp, hfp, by rw [lookupA_cons, if_pos rfl]⟩
        · rcases List.mem_cons.mp hu with h' | h'
          · exact absurd h'.symm hut
          · obtain ⟨hint, fpu, hfpu, hlu⟩ := ih _ _ _ hrec u h'
            exact ⟨hint, fpu, hfpu, by rw [lookupA_cons, if_neg hut]; exact hlu⟩

theorem run_inputs_db_frame (rules : List ResolvedRule) (env : EngineEnv) (config : ConfigMap)
    (recur : ResolvedRule → RunState → RunState × RunResult Bool)
    (r : ResolvedRule) (prev : PrevRecord)
    (hrec : ∀ r' st st' res, r' ∈ rules → recur r' st = (st', res) →
      ∀ k, lookupA k st'.db = lookupA k st.db
        ∨ ∃ r'' m, r'' ∈ rules ∧ k = compute_run_fingerprint config r''
            ∧ lookupA k st'.db = some m ∧ GoodRecord rules env m r'') :
    ∀ inputs rb tc st st' res, run_inputs rules env recur r prev inputs rb tc st = (st', res) →
      ∀ k, lookupA k st'.db = lookupA k st.db
        ∨ ∃ r'' m, r'' ∈ rules ∧ k = compute_run_fingerprint config r''
            ∧ lookupA k st'.db = some m ∧ GoodRecord rules env m r'' := by
  intro inputs
  induction inputs with
  | nil =>
    intro rb tc st st' res h k
    rw [run_inputs] at h
    cases h
    exact Or.inl rfl
  | cons t rest ih =>
    intro rb tc st st' res h k
    rw [run_inputs] at h
    split at h
    next htr =>
      split at h
      next hdk => exact ih _ _ _ _ _ h k
      next hdk =>
        cases h
        exact Or.inl rfl
    next sub htr =>
      have hsubmem : sub ∈ rules := (target_to_rule_mem htr).1
      cases hrc : recur sub st with
      | mk st2 res2 =>
        rw [hrc] at h
        cases res2 with
        | ok b =>
          dsimp only at h
          rcases ih _ _ _ _ _ h k with hrest | hrest
          · rw [hrest]
            exact hrec sub st st2 (.ok b) hsubmem hrc k
          · exact Or.inr hrest
        | err e =>
          dsimp only at h
          cases h
          exact hrec sub st _ (.err e) hsubmem hrc k
        | div =>
          dsimp only at h
          cases h
          exact hrec sub st _ .div hsubmem hrc k

theorem run_rule_go_db_frame (rules : List ResolvedRule) (env : EngineEnv) (config : ConfigMap)
    (hsome : ∀ t h', (env.compute_fingerprint t h').isSome)
    (hlaw : ∀ t h1 h2 fp, env.compute_fingerprint t h1 = some fp →
      env.need_rebuild t h2 fp = false) :
    ∀ fuel r st st' res, r ∈ rules → run_rule_go rules env config fuel r st = (st', res) →
      ∀ k, lookupA k st'.db = lookupA k st.db
        ∨ ∃ r'' m, r'' ∈ rules ∧ k = compute_run_fingerprint config r''
            ∧ lookupA k st'.db = some m ∧ GoodRecord rules env m r'' := by
  intro fuel
  induction fuel with
  | zero =>
    intro r st st' res hr h k
    cases h
    exact Or.inl rfl
  | succ fuel ih =>
    intro r st st' res hr h k
    rcases run_rule_go_succ_cases rules env config fuel r st st' res h with
      ⟨b, hae, rfl, rfl⟩ | ⟨hae, st1, ⟨e, hri, rfl, rfl⟩ | ⟨hri, rfl, rfl⟩ |
        ⟨rb1, tc1, rb, tc, st2, hri, hro, hcase⟩⟩
    · exact Or.inl rfl
    · exact run_inputs_db_frame rules env config _ r _
        (fun r' a b' c hm heq => ih r' a b' c hm heq) _ _ _ _ _ _ hri k
    · exact run_inputs_db_frame rules env config _ r _
        (fun r' a b' c hm heq => ih r' a b' c hm heq) _ _ _ _ _ _ hri k
    · have hframe1 := run_inputs_db_frame rules env config _ r _
        (fun r' a b' c hm heq => ih r' a b' c hm heq) _ _ _ _ _ _ hri
      obtain ⟨_, ho_db, _, ho_tc⟩ := run_outputs_state env _ _ _ _ _ _ _ _ hro
      rcases hcase with ⟨hrb, hst, hres⟩ | ⟨hrb, hok, hst, hres⟩ |
        ⟨hrb, hok, fps, st3, hct, hst, hres⟩
      · subst hst
        show lookupA k st2.db = lookupA k st.db
          ∨ ∃ r'' m, r'' ∈ rules ∧ k = compute_run_fingerprint config r''
              ∧ lookupA k st2.db = some m ∧ GoodRecord rules env m r''
        rw [ho_db]
        exact hframe1 k
      · subst hst
        show lookupA k st2.db = lookupA k st.db
          ∨ ∃ r'' m, r'' ∈ rules ∧ k = compute_run_fingerprint config r''
              ∧ lookupA k st2.db = some m ∧ GoodRecord rules env m r''
        rw [ho_db]
        exact hframe1 k
      · subst hst
        obtain ⟨_, hc_db, _⟩ := commit_targets_state env _ _ _ _ hct
        have hst3db : st3.db = st1.db := by
          rw [hc_db]
          show st2.db = st1.db
          exact ho_db
        show lookupA k ((compute_run_fingerprint config r, fps) :: st3.db)
            = lookupA k st.db
          ∨ ∃ r'' m, r'' ∈ rules ∧ k = compute_run_fingerprint config r''
              ∧ lookupA k ((compute_run_fingerprint config r, fps) :: st3.db) = some m
              ∧ GoodRecord rules env m r''
        by_cases hk : compute_run_fingerprint config r = k
        · refine Or.inr ⟨r, fps, hr, hk.symm, ?_, ?_⟩
          · rw [lookupA_cons, if_pos hk]
          · -- the committed record covers every unowned input and output
            intro t ht
            have htc : t ∈ tc := by
              rw [ho_tc, run_inputs_tc rules env _ r _ _ _ _ _ _ _ _ hri]
              rcases ht with h' | h'
              · exact List.mem_append.mpr (Or.inl (by simpa [unowned_inputs] using h'))
              · exact List.mem_append.mpr (Or.inr h')
            obtain ⟨hint, fp, hfpeq, hlk⟩ := commit_targets_covers env hsome _ _ _ _ hct t htc
            exact ⟨fp, hlk, hlaw t hint (some fp) fp hfpeq⟩
        · rw [lookupA_cons, if_neg hk, hst3db]
          exact hframe1 k

theorem settled_frame (rules : List ResolvedRule) (env : EngineEnv) (config : ConfigMap)
    (hids : (rules.map (·.id)).Nodup) {dbOld dbNew : Db}
    (hframe : ∀ k, lookupA k dbNew = lookupA k dbOld
      ∨ ∃ r'' m, r'' ∈ rules ∧ k = compute_run_fingerprint config r''
          ∧ lookupA k dbNew = some m ∧ GoodRecord rules env m r'')
    {r : ResolvedRule} (hr : r ∈ rules)
    (hs : settled rules env config dbOld r) :
    settled rules env config dbNew r := by
  obtain ⟨m, hm, hgood⟩ := hs
  rcases hframe (compute_run_fingerprint config r) with h' | ⟨r'', m', hmem, hkey, hlk, hgood'⟩
  · exact ⟨m, by rw [h']; exact hm, hgood⟩
  · have hid : r''.id = r.id := congrArg Prod.fst hkey.symm
    have : r'' = r := rule_id_unique hids hmem hr hid
    subst this
    exact ⟨m', hlk, hgood'⟩

theorem run_inputs_settled (rules : List ResolvedRule) (env : EngineEnv) (config : ConfigMap)
    (recur : ResolvedRule → RunState → RunState × RunResult Bool)
    (r : ResolvedRule) (prev : PrevRecord)
    (hrec : ∀ r' st st' b, r' ∈ rules → recur r' st = (st', .ok b) →
      AeSettled rules env config st → AeSettled rules env config st') :
    ∀ inputs rb tc st st' rb' tc',
      run_inputs rules env recur r prev inputs rb tc st = (st', .ok (rb', tc')) →
      AeSettled rules env config st → AeSettled rules env config st' := by
  intro inputs
  induction inputs with
  | nil =>
    intro rb tc st st' rb' tc' h hset
    rw [run_inputs] at h
    cases h
    exact hset
  | cons t rest ih =>
    intro rb tc st st' rb' tc' h hset
    rw [run_inputs] at h
    split at h
    next htr =>
      split at h
      next hdk =>
        refine ih _ _ _ _ _ _ h ?_
        intro r' b' hlook
        exact hset r' b' hlook
      next hdk => cases h
    next sub htr =>
      have hsubmem : sub ∈ rules := (target_to_rule_mem htr).1
      cases hrc : recur sub st with
      | mk st2 res2 =>
        rw [hrc] at h
        cases res2 with
        | ok b =>
          dsimp only at h
          exact ih _ _ _ _ _ _ h (hrec sub st st2 b hsubmem hrc hset)
        | err e => cases h
        | div => cases h

theorem run_rule_go_settled (rules : List ResolvedRule) (env : EngineEnv) (config : ConfigMap)
    (hids : (rules.map (·.id)).Nodup)
    (hsome : ∀ t h', (env.compute_fingerprint t h').isSome)
    (hlaw : ∀ t h1 h2 fp, env.compute_fingerprint t h1 = some fp →
      env.need_rebuild t h2 fp = false) :
    ∀ fuel r st st' b, r ∈ rules →
      run_rule_go rules env config fuel r st = (st', .ok b) →
      AeSettled rules env config st → AeSettled rules env config st' := by
  intro fuel
  induction fuel with
  | zero =>
    intro r st st' b hr h hset
    cases h
  | succ fuel ih =>
    intro r st st' b hr h hset
    rcases run_rule_go_succ_cases rules env config fuel r st st' _ h with
      ⟨b', hae, rfl, heq⟩ | ⟨hae, st1, ⟨e, hri, hst, heq⟩ | ⟨hri, hst, heq⟩ |
        ⟨rb1, tc1, rb, tc, st2, hri, hro, hcase⟩⟩
    · exact hset
    · exact RunResult.noConfusion heq
    · exact RunResult.noConfusion heq
    · have hset1 : AeSettled rules env config st1 := by
        rcases hcase with ⟨hrb, hst, hres⟩ | ⟨hrb, hok, hst, hres⟩ |
          ⟨hrb, hok, fps, st3, hct, hst, hres⟩
        · exact run_inputs_settled rules env config _ r _
            (fun r' a b' c hm heq => ih r' a b' c hm heq) _ _ _ _ _ _ _ hri hset
        · exact RunResult.noConfusion hres
        · exact run_inputs_settled rules env config _ r _
            (fun r' a b' c hm heq => ih r' a b' c hm heq) _ _ _ _ _ _ _ hri hset
      obtain ⟨ho_ae, ho_db, ho_tr, ho_tc⟩ := run_outputs_state env _ _ _ _ _ _ _ _ hro
      have hframe1 : ∀ k, lookupA k st1.db = lookupA k st.db
          ∨ ∃ r'' m, r'' ∈ rules ∧ k = compute_run_fingerprint config r''
              ∧ lookupA k st1.db = some m ∧ GoodRecord rules env m r'' :=
        run_inputs_db_frame rules env config _ r _
          (fun r' a b' c hm heq => run_rule_go_db_frame rules env config hsome hlaw
            fuel r' a b' c hm heq) _ _ _ _ _ _ hri
      rcases hcase with ⟨hrb, hst, hres⟩ | ⟨hrb, hok, hst, hres⟩ |
        ⟨hrb, hok, fps, st3, hct, hst, hres⟩
      · -- skip: the record fetched at entry replayed as unchanged
        subst hrb hst
        obtain ⟨hrb1, houtgood⟩ := run_outputs_false env _ _ _ _ _ _ _ hro
        subst hrb1
        obtain ⟨hrb0, hingood⟩ := run_inputs_false rules env _ r _ _ _ _ _ _ _ hri
        cases hf : lookupA (compute_run_fingerprint config r) st.db with
        | none => rw [hf] at hrb0; exact absurd hrb0 (by simp)
        | some m0 =>
          have hgood0 : GoodRecord rules env m0 r := by
            intro t ht
            rcases ht with h' | h'
            · obtain ⟨hmem, hnone⟩ := List.mem_filter.mp h'
              have := hingood t hmem (by simpa using hnone)
              rw [hf] at this
              exact this
            · have := houtgood t h'
              rw [hf] at this
              exact this
          have hsettled_r : settled rules env config st1.db r := by
            rcases hframe1 (compute_run_fingerprint config r) with h' | ⟨r'', m', hmem, hkey, hlk, hgood'⟩
            · exact ⟨m0, by rw [h']; exact hf, hgood0⟩
            · have hid : r''.id = r.id := congrArg Prod.fst hkey.symm
              have : r'' = r := rule_id_unique hids hmem hr hid
              subst this
              exact ⟨m', hlk, hgood'⟩
          intro r' b' hlook
          rw [show ({ st2 with already_evaluated := (r, false) :: st2.already_evaluated}
              : RunState).already_evaluated = (r, false) :: st2.already_evaluated from rfl,
            lookupA_cons] at hlook
          by_cases hrr : r = r'
          · subst hrr
            refine ⟨hr, ?_⟩
            show settled rules env config st2.db r
            rw [ho_db]
            exact hsettled_r
          · rw [if_neg hrr] at hlook
            rw [ho_ae] at hlook
            obtain ⟨hm', hs'⟩ := hset1 r' b' hlook
            refine ⟨hm', ?_⟩
            show settled rules env config st2.db r'
            rw [ho_db]
            exact hs'
      · exact RunResult.noConfusion hres
      · -- commit: a freshly committed good record
        subst hrb hst
        obtain ⟨hc_ae, hc_db, hc_tr⟩ := commit_targets_state env _ _ _ _ hct
        have hst3db : st3.db = st1.db := by
          rw [hc_db]
          show st2.db = st1.db
          exact ho_db
        have hst3ae : st3.already_evaluated = (r, true) :: st2.already_evaluated := by
          rw [hc_ae]
          rfl
        have hgoodfps : GoodRecord rules env fps r := by
          intro t ht
          have htc : t ∈ tc := by
            rw [ho_tc, run_inputs_tc rules env _ r _ _ _ _ _ _ _ _ hri]
            rcases ht with h' | h'
            · exact List.mem_append.mpr (Or.inl (by simpa [unowned_inputs] using h'))
            · exact List.mem_append.mpr (Or.inr h')
          obtain ⟨hint, fp, hfpeq, hlk⟩ := commit_targets_covers env hsome _ _ _ _ hct t htc
          exact ⟨fp, hlk, hlaw t hint (some fp) fp hfpeq⟩
        have hstep : ∀ k, lookupA k ((compute_run_fingerprint config r, fps) :: st3.db)
            = lookupA k st1.db
            ∨ ∃ r'' m, r'' ∈ rules ∧ k = compute_run_fingerprint config r''
                ∧ lookupA k ((compute_run_fingerprint config r, fps) :: st3.db) = some m
                ∧ GoodRecord rules env m r'' := by
          intro k
          by_cases hk : compute_run_fingerprint config r = k
          · exact Or.inr ⟨r, fps, hr, hk.symm, by rw [lookupA_cons, if_pos hk], hgoodfps⟩
          · rw [lookupA_cons, if_neg hk, hst3db]
            exact Or.inl rfl
        intro r' b' hlook
        have hlook2 : lookupA r' ((r, true) :: st2.already_evaluated) = some b' := by
          rw [← hst3ae]
          exact hlook
        rw [lookupA_cons] at hlook2
        by_cases hrr : r = r'
        · subst hrr
          refine ⟨hr, ?_⟩
          show settled rules env config ((compute_run_fingerprint config r, fps) :: st3.db) r
          exact ⟨fps, by rw [lookupA_cons, if_pos rfl], hgoodfps⟩
        · rw [if_neg hrr] at hlook2
          rw [ho_ae] at hlook2
          obtain ⟨hm', hs'⟩ := hset1 r' b' hlook2
          refine ⟨hm', ?_⟩
          show settled rules env config ((compute_run_fingerprint config r, fps) :: st3.db) r'
          exact settled_frame rules env config hids hstep hm' hs'

theorem bodyCount_cons_not_body (e : Event) (tr : List Event)
    (he : ∀ i, e ≠ Event.runBody i) :
    bodyCount (e :: tr) = bodyCount tr := by
  unfold bodyCount
  rw [List.countP_cons]
  cases e with
  | cook t => rfl
  | runBody i => exact absurd rfl (he i)
  | commit i => rfl
  | cleanTarget t => rfl

theorem bodyCount_cooks_prefix (outs : List TargetId) (tr : List Event) :
    bodyCount ((outs.map Event.cook).reverse ++ tr) = bodyCount tr := by
  induction outs with
  | nil => rfl
  | cons t rest ih =>
    show bodyCount (((Event.cook t :: rest.map Event.cook) : List Event).reverse ++ tr) = _
    rw [List.reverse_cons, List.append_assoc]
    unfold bodyCount
    rw [List.countP_append, List.countP_append]
    have : List.countP (fun e => match e with | Event.runBody _ => true | _ => false)
        [Event.cook t] = 0 := rfl
    rw [this]
    have h2 := ih
    unfold bodyCount at h2
    rw [List.countP_append] at h2
    omega

theorem run_inputs_second (rules : List ResolvedRule) (env : EngineEnv) (config : ConfigMap)
    (recur : ResolvedRule → RunState → RunState × RunResult Bool)
    (r : ResolvedRule) (D : Db) (m : PrevRecord)
    (hgood : GoodRecord rules env m r)
    (hrec : ∀ r' stA stB stA' bb, r' ∈ rules →
      recur r' stA = (stA', .ok bb) →
      (∀ r'', lookupA r'' stA'.already_evaluated ≠ none →
        r'' ∈ rules ∧ settled rules env config D r'') →
      relAE stA stB →
      (∀ r' b', lookupA r' stB.already_evaluated = some b' → b' = false) →
      stB.db = D → bodyCount stB.trace = 0 →
      ∃ stB', recur r' stB = (stB', .ok false)
        ∧ relAE stA' stB'
        ∧ (∀ r'' b', lookupA r'' stB'.already_evaluated = some b' → b' = false)
        ∧ stB'.db = D ∧ bodyCount stB'.trace = 0)
    (hrecmono : ∀ r' st st' res, recur r' st = (st', res) →
      ∀ r'', lookupA r'' st.already_evaluated ≠ none →
        lookupA r'' st'.already_evaluated ≠ none)
    (prevA : PrevRecord) :
    ∀ inputs, (∀ t ∈ inputs, t ∈ r.resolved_inputs) →
      ∀ rbA tcA stA stA' rbA' tcA',
      run_inputs rules env recur r prevA inputs rbA tcA stA = (stA', .ok (rbA', tcA')) →
      (∀ r'', lookupA r'' stA'.already_evaluated ≠ none →
        r'' ∈ rules ∧ settled rules env config D r'') →
      ∀ stB rbB tcB, relAE stA stB →
        (∀ r' b', lookupA r' stB.already_evaluated = some b' → b' = false) →
        stB.db = D → bodyCount stB.trace = 0 →
      ∃ stB' tcB', run_inputs rules env recur r m inputs rbB tcB stB = (stB', .ok (rbB, tcB'))
        ∧ relAE stA' stB'
        ∧ (∀ r' b', lookupA r' stB'.already_evaluated = some b' → b' = false)
        ∧ stB'.db = D ∧ bodyCount stB'.trace = 0 := by
  intro inputs
  induction inputs with
  | nil =>
    intro _ rbA tcA stA stA' rbA' tcA' hA hset stB rbB tcB hrel hfalse hdb hbody
    rw [run_inputs] at hA
    cases hA
    exact ⟨stB, tcB, by rw [run_inputs], hrel, hfalse, hdb, hbody⟩
  | cons t rest ih =>
    intro hsub rbA tcA stA stA' rbA' tcA' hA hset stB rbB tcB hrel hfalse hdb hbody
    rw [run_inputs] at hA
    split at hA
    next htr =>
      split at hA
      next hdk =>
        -- unowned, on-disk input: the settled record replays it unchanged
        have htun : t ∈ unowned_inputs rules r := by
          rw [unowned_inputs, List.mem_filter]
          exact ⟨hsub t (List.mem_cons_self t rest), by rw [htr]; rfl⟩
        obtain ⟨fp, hfp, hnr⟩ := hgood t (Or.inl htun)
        have hbody2 : bodyCount (Event.cook t :: stB.trace) = 0 := by
          rw [bodyCount_cons_not_body _ _ (fun i hh => Event.noConfusion hh)]
          exact hbody
        obtain ⟨stB', tcB', hBeq, hrel', hfalse', hdb', hbody'⟩ :=
          ih (fun u hu => hsub u (List.mem_cons_of_mem t hu)) _ _ _ _ _ _ hA hset
          { addEvent (Event.cook t) stB with targets_eval_cache :=
              (t, (some fp, false)) :: (addEvent (Event.cook t) stB).targets_eval_cache }
          (rbB || false) (tcB ++ [t]) hrel hfalse hdb hbody2
        rw [Bool.or_false] at hBeq
        refine ⟨stB', tcB', ?_, hrel', hfalse', hdb', hbody'⟩
        rw [run_inputs, htr]
        simp only [hdk, if_true]
        rw [hfp]
        dsimp only
        rw [hnr, Bool.or_false]
        exact hBeq
      next hdk => cases hA
    next sub htr =>
      have hsubmem : sub ∈ rules := (target_to_rule_mem htr).1
      cases hrcA : recur sub stA with
      | mk stA2 res2 =>
        rw [hrcA] at hA
        cases res2 with
        | ok bb =>
          dsimp only at hA
          -- every rule memoised after the child call stays memoised to the end
          have hsetmid : ∀ r'', lookupA r'' stA2.already_evaluated ≠ none →
              r'' ∈ rules ∧ settled rules env config D r'' := by
            intro r'' h''
            exact hset r'' (run_inputs_ae_mono rules env recur r prevA hrecmono
              _ _ _ _ _ _ hA r'' h'')
          obtain ⟨stB2, hBrec, hrel2, hfalse2, hdb2, hbody2⟩ :=
            hrec sub stA stB stA2 bb hsubmem hrcA hsetmid hrel hfalse hdb hbody
          obtain ⟨stB', tcB', hBeq, hrel', hfalse', hdb', hbody'⟩ :=
            ih (fun u hu => hsub u (List.mem_cons_of_mem t hu)) _ _ _ _ _ _ hA hset
            stB2 (rbB || false) tcB hrel2 hfalse2 hdb2 hbody2
          rw [Bool.or_false] at hBeq
          refine ⟨stB', tcB', ?_, hrel', hfalse', hdb', hbody'⟩
          rw [run_inputs, htr]
          dsimp only
          rw [hBrec]
          dsimp only
          rw [Bool.or_false]
          exact hBeq
        | err e => cases hA
        | div => cases hA

theorem run_rule_go_second (rules : List ResolvedRule) (env : EngineEnv) (config : ConfigMap)
    (D : Db) :
    ∀ fuel r stA stB stA' b, r ∈ rules →
      run_rule_go rules env config fuel r stA = (stA', .ok b) →
      (∀ r'', lookupA r'' stA'.already_evaluated ≠ none →
        r'' ∈ rules ∧ settled rules env config D r'') →
      relAE stA stB →
      (∀ r' b', lookupA r' stB.already_evaluated = some b' → b' = false) →
      stB.db = D → bodyCount stB.trace = 0 →
      ∃ stB', run_rule_go rules env config fuel r stB = (stB', .ok false)
        ∧ relAE stA' stB'
        ∧ (∀ r' b', lookupA r' stB'.already_evaluated = some b' → b' = false)
        ∧ stB'.db = D ∧ bodyCount stB'.trace = 0 := by
  intro fuel
  induction fuel with
  | zero =>
    intro r stA stB stA' b hr h
    cases h
  | succ fuel ih =>
    intro r stA stB stA' b hr h hset hrel hfalse hdb hbody
    rcases run_rule_go_succ_cases rules env config fuel r stA stA' _ h with
      ⟨b', haeA, rfl, heq⟩ | ⟨haeA, st1, ⟨e, hri, hst, heq⟩ | ⟨hri, hst, heq⟩ |
        ⟨rb1, tc1, rb, tc, st2, hri, hro, hcase⟩⟩
    · have hBne : lookupA r stB.already_evaluated ≠ none := by
        intro hB0
        rw [(hrel r).mpr hB0] at haeA
        exact Option.noConfusion haeA
      cases hB : lookupA r stB.already_evaluated with
      | none => exact absurd hB hBne
      | some bB =>
        have hbB : bB = false := hfalse r bB hB
        subst hbB
        refine ⟨stB, ?_, hrel, hfalse, hdb, hbody⟩
        rw [run_rule_go, hB]
    · exact RunResult.noConfusion heq
    · exact RunResult.noConfusion heq
    · have hBnone : lookupA r stB.already_evaluated = none := (hrel r).mp haeA
      have hselfA : lookupA r stA'.already_evaluated ≠ none :=
        run_rule_go_ok_ae rules env config (fuel+1) r stA stA' b h
      obtain ⟨_, hsettledr⟩ := hset r hselfA
      obtain ⟨m, hm, hgood⟩ := hsettledr
      obtain ⟨ho_ae, ho_db, ho_tr, ho_tc⟩ := run_outputs_state env _ _ _ _ _ _ _ _ hro
      have hmono_tail : ∀ r'', lookupA r'' st1.already_evaluated ≠ none →
          lookupA r'' stA'.already_evaluated ≠ none := by
        intro r'' h''
        have h2 : lookupA r'' st2.already_evaluated ≠ none := by rw [ho_ae]; exact h''
        rcases hcase with ⟨hrb, hst, hres⟩ | ⟨hrb, hok, hst, hres⟩ |
          ⟨hrb, hok, fps, st3, hct, hst, hres⟩
        · subst hst
          exact lookupA_cons_ne_none r'' r false st2.already_evaluated h2
        · exact RunResult.noConfusion hres
        · subst hst
          obtain ⟨hc_ae, _, _⟩ := commit_targets_state env _ _ _ _ hct
          show lookupA r'' st3.already_evaluated ≠ none
          rw [hc_ae]
          exact lookupA_cons_ne_none r'' r true st2.already_evaluated h2
      have hsetmid : ∀ r'', lookupA r'' st1.already_evaluated ≠ none →
          r'' ∈ rules ∧ settled rules env config D r'' :=
        fun r'' h'' => hset r'' (hmono_tail r'' h'')
      obtain ⟨stB1, tcB1, hBinputs, hrel1, hfalse1, hdb1, hbody1⟩ :=
        run_inputs_second rules env config _ r D m hgood
          (fun r' sA sB sA' bb hm' heq' hs' => ih r' sA sB sA' bb hm' heq' hs')
          (fun r' a b' c heq' => run_rule_go_ae_mono rules env config fuel r' a b' c heq')
          _ r.resolved_inputs (fun u hu => hu) _ _ _ _ _ _ hri hsetmid
          stB false [] hrel hfalse hdb hbody
      obtain ⟨tcB2, stB2, hBout, hB2ae, hB2db, hB2tr⟩ :=
        run_outputs_good env m r.resolved_outputs false tcB1 stB1
          (fun t ht => hgood t (Or.inr ht))
      have hBfetch : lookupA (compute_run_fingerprint config r) stB.db = some m := by
        rw [hdb]
        exact hm
      refine ⟨{ stB2 with already_evaluated := (r, false) :: stB2.already_evaluated },
        ?_, ?_, ?_, ?_, ?_⟩
      · rw [run_rule_go, hBnone]
        dsimp only
        rw [hBfetch]
        simp only [Option.isNone_some, Option.getD_some]
        rw [hBinputs]
        dsimp only
        rw [hBout]
        dsimp only
        rw [if_neg Bool.false_ne_true]
      · intro r'
        have hAae : ∀ bA', stA'.already_evaluated = (r, bA') :: st2.already_evaluated →
            ((lookupA r' stA'.already_evaluated = none) ↔
             (lookupA r' ((r, false) :: stB2.already_evaluated) = none)) := by
          intro bA' hAee
          rw [hAee, lookupA_cons, lookupA_cons]
          by_cases hrr : r = r'
          · rw [if_pos hrr, if_pos hrr]
            simp
          · rw [if_neg hrr, if_neg hrr]
            rw [ho_ae, hB2ae]
            exact hrel1 r'
        rcases hcase with ⟨hrb, hst, hres⟩ | ⟨hrb, hok, hst, hres⟩ |
          ⟨hrb, hok, fps, st3, hct, hst, hres⟩
        · exact hAae false (by rw [hst])
        · exact RunResult.noConfusion hres
        · obtain ⟨hc_ae, _, _⟩ := commit_targets_state env _ _ _ _ hct
          refine hAae true ?_
          rw [hst]
          show st3.already_evaluated = (r, true) :: st2.already_evaluated
          rw [hc_ae]
          rfl
      · intro r' b' hlook
        rw [show ({ stB2 with already_evaluated := (r, false) :: stB2.already_evaluated }
            : RunState).already_evaluated = (r, false) :: stB2.already_evaluated from rfl,
          lookupA_cons] at hlook
        by_cases hrr : r = r'
        · rw [if_pos hrr] at hlook
          cases hlook
          rfl
        · rw [if_neg hrr] at hlook
          rw [hB2ae] at hlook
          exact hfalse1 r' b' hlook
      · show stB2.db = D
        rw [hB2db]
        exact hdb1
      · show bodyCount stB2.trace = 0
        rw [hB2tr, bodyCount_cooks_prefix]
        exact hbody1

/-! Claim C7: second run after a successful run. -/

/-- Claim C7 as stated is false: with handlers whose `need_rebuild` is
constantly true, law R2 (`need_rebuild c fp = false → compute_fingerprint c
= fp`) holds vacuously, yet the second `run` after a successful first run
returns true and invokes the rule body again. -/
theorem c7_counterexample :
    (∀ t h fp, envTrue.need_rebuild t h fp = false →
      envTrue.compute_fingerprint t h = some fp)
    ∧ (runner_run [c7Rule] envTrue cfgEmpty [] 5 "a").2 = .ok true
    ∧ (runner_run [c7Rule] envTrue cfgEmpty
        (runner_run [c7Rule] envTrue cfgEmpty [] 5 "a").1.db 5 "a").2 = .ok true
    ∧ bodyCount (runner_run [c7Rule] envTrue cfgEmpty
        (runner_run [c7Rule] envTrue cfgEmpty [] 5 "a").1.db 5 "a").1.trace = 1 := by
  refine ⟨fun t h fp hf => ?_, by decide, by decide, by decide⟩
  simp [envTrue] at hf

/-- C7 (amended): over a rule set with unique ids, with handlers whose
`compute_fingerprint` always succeeds and that satisfy the strengthened
round-trip law (a target whose stored fingerprint is reproduced by
`compute_fingerprint` is reported unchanged by `need_rebuild`), a second
`run` of the same target from the store left by a successful first run
returns false, fires no rule body, and leaves the store untouched. -/
theorem c7_second_run_noop (rules : List ResolvedRule) (env : EngineEnv) (config : ConfigMap)
    (hids : (rules.map (·.id)).Nodup)
    (hsome : ∀ t h', (env.compute_fingerprint t h').isSome)
    (hlaw : ∀ t h1 h2 fp, env.compute_fingerprint t h1 = some fp →
      env.need_rebuild t h2 fp = false)
    (db0 : Db) (fuel : Nat) (t : TargetId) (st1 : RunState) (b : Bool)
    (h1 : runner_run rules env config db0 fuel t = (st1, .ok b)) :
    ∃ st2, runner_run rules env config st1.db fuel t = (st2, .ok false)
      ∧ bodyCount st2.trace = 0 ∧ st2.db = st1.db := by
  rw [runner_run] at h1
  cases htr : target_to_rule rules t with
  | none =>
    rw [htr] at h1
    injection h1 with h1a h1b
    exact RunResult.noConfusion h1b
  | some r =>
    rw [htr] at h1
    have hr : r ∈ rules := (target_to_rule_mem htr).1
    have hinit : AeSettled rules env config (initState db0) := by
      intro r' b' hlook
      exact Option.noConfusion hlook
    have hsettled : AeSettled rules env config st1 :=
      run_rule_go_settled rules env config hids hsome hlaw fuel r
        (initState db0) st1 b hr h1 hinit
    have hset : ∀ r'', lookupA r'' st1.already_evaluated ≠ none →
        r'' ∈ rules ∧ settled rules env config st1.db r'' := by
      intro r'' hne
      cases hl : lookupA r'' st1.already_evaluated with
      | none => exact absurd hl hne
      | some b'' => exact hsettled r'' b'' hl
    obtain ⟨stB', hB, hrel', hfalse', hdb', hbody'⟩ :=
      run_rule_go_second rules env config st1.db fuel r
        (initState db0) (initState st1.db) st1 b hr h1 hset
        (fun r' => Iff.rfl) (fun r' b' hlook => Option.noConfusion hlook) rfl rfl
    refine ⟨stB', ?_, hbody', hdb'⟩
    rw [runner_run, htr]
    exact hB

/-- Witness for C7 (amended): a two-rule chain with the fingerprint-respecting
handlers; the second run over the store produced by the first returns false
with an empty body count. -/
theorem c7_second_run_noop_witness :
    ∃ st2, runner_run c5Rules envGood cfgEmpty
        (runner_run c5Rules envGood cfgEmpty [] 9 "b").1.db 9 "b" = (st2, .ok false)
      ∧ bodyCount st2.trace = 0
      ∧ st2.db = (runner_run c5Rules envGood cfgEmpty [] 9 "b").1.db :=
  c7_second_run_noop c5Rules envGood cfgEmpty (by decide) (fun t h' => rfl)
    (fun t h1 h2 fp hf => by injection hf with h; rw [← h]; rfl)
    [] 9 "b" (runner_run c5Rules envGood cfgEmpty [] 9 "b").1 true (by decide)
